import Mathlib

/-!
Verification development for the XBRL statement parser
(sources: htm_parser.py, main.py, lab_parser.py, pre_parser.py).

Python strings are modelled as lists of characters (`Str`); Python dicts
(which preserve insertion order and overwrite values in place) are modelled
as association lists with an order-preserving insert (`dinsert`).
`decimal.Decimal` values are modelled exactly by a sign, a coefficient and
a power-of-ten exponent, together with the special values Infinity, NaN and
sNaN, and arithmetic follows the decimal context that both scripts install
at import time: precision 38, Emin = -999999, Emax = 999999, rounding
half-even, with the default traps (InvalidOperation, DivisionByZero,
Overflow).  Binary floating point is not modelled: where the code hands a
finite decimal to `float`, the model records the exact value handed over
(`ScaledResult.floatV`).
-/

/-- Python strings as lists of characters. -/
abbrev Str := List Char

/-- Lower-casing, character-wise (faithful to `str.lower` on ASCII data). -/
def lowerStr (s : Str) : Str := s.map Char.toLower

/-- The whitespace characters stripped by `str.strip()` (ASCII subset). -/
def isPySpace (c : Char) : Bool :=
  c = ' ' || c = '\t' || c = '\n' || c = '\r' || c = '\x0b' || c = '\x0c'

/-- Removes leading and trailing whitespace, like `str.strip()`. -/
def stripWs (s : Str) : Str :=
  ((s.dropWhile isPySpace).reverse.dropWhile isPySpace).reverse

/-- Splitting on whitespace runs with empties dropped, like `str.split()`. -/
def splitWs (s : Str) : List Str :=
  let rec go : Str → Str → List Str → List Str
    | [], cur, acc => if cur = [] then acc else acc ++ [cur]
    | c :: rest, cur, acc =>
        if isPySpace c then
          if cur = [] then go rest [] acc else go rest [] (acc ++ [cur])
        else go rest (cur ++ [c]) acc
  go s [] []

/-- Whether `pat` occurs at the start of `s`. -/
def startsStr : Str → Str → Bool
  | [], _ => true
  | _ :: _, [] => false
  | p :: ps, c :: cs => p = c && startsStr ps cs

/-- Whether `pat` occurs contiguously inside `s`, like the Python `in`
operator on strings (an empty pattern always matches). -/
def containsSub (pat : Str) : Str → Bool
  | [] => pat.isEmpty
  | c :: cs => startsStr pat (c :: cs) || containsSub pat cs

/-- Lexicographic non-strict comparison by code point, matching the order
Python uses on strings. -/
def strLeB : Str → Str → Bool
  | [], _ => true
  | _ :: _, [] => false
  | a :: as', b :: bs => if a.toNat < b.toNat then true
      else if b.toNat < a.toNat then false else strLeB as' bs

/-- Insertion into an association list with Python dict semantics: an
existing key keeps its position and gets the new value, a fresh key is
appended at the end. -/
def dinsert {K V : Type} [DecidableEq K] (k : K) (v : V) :
    List (K × V) → List (K × V)
  | [] => [(k, v)]
  | (k', v') :: t => if k' = k then (k, v) :: t else (k', v') :: dinsert k v t

/-- Lookup in an association list, like `dict.get`. -/
def dlookup {K V : Type} [DecidableEq K] (k : K) (d : List (K × V)) :
    Option V :=
  (d.find? (fun kv => kv.1 = k)).map (fun kv => kv.2)

/-- Append to the list held at a key, like `defaultdict(list)[k].append v`:
the key order is the order of first insertion. -/
def dAppend {K V : Type} [DecidableEq K] (k : K) (v : V) :
    List (K × List V) → List (K × List V)
  | [] => [(k, [v])]
  | (k', vs) :: t =>
      if k' = k then (k', vs ++ [v]) :: t else (k', vs) :: dAppend k v t

/-- Value of the last write to key `k` in a chronological write list. -/
def lastWrite {K V : Type} [DecidableEq K] (k : K) :
    List (K × V) → Option V
  | [] => none
  | w :: ws =>
      match lastWrite k ws with
      | some v => some v
      | none => if w.1 = k then some w.2 else none

/-- Numeric value of a decimal digit. -/
def digitVal (c : Char) : ℕ := c.toNat - ('0').toNat

/-- Value of a nonempty all-digit string. -/
def digitsToNat (s : Str) : ℕ := s.foldl (fun a c => 10 * a + digitVal c) 0

/-- Parser for the digit groups accepted by Python `int`, where single
underscores may separate digits. -/
def digitsUGo : Str → ℕ → Option ℕ
  | [], acc => some acc
  | '_' :: c :: r, acc =>
      if c.isDigit then digitsUGo r (10 * acc + digitVal c) else none
  | '_' :: [], _ => none
  | c :: r, acc => if c.isDigit then digitsUGo r (10 * acc + digitVal c) else none

/-- Digits-with-underscores, as accepted by Python `int`. -/
def digitsU : Str → Option ℕ
  | [] => none
  | c :: r => if c.isDigit then digitsUGo r (digitVal c) else none

/-- Model of Python `int(str)`: strip whitespace, optional sign, decimal
digits with single underscores between digits. -/
def parsePyInt (s : Str) : Option ℤ :=
  match stripWs s with
  | '+' :: r => (digitsU r).map Int.ofNat
  | '-' :: r => (digitsU r).map (fun n => -(n : ℤ))
  | r => (digitsU r).map Int.ofNat

/-- A `decimal.Decimal` value: finite values carry a sign, a coefficient
(as literally written, trailing zeros included) and a power-of-ten
exponent; the special values are infinities, quiet NaN and signaling NaN. -/
inductive PyDec : Type
  | fin (neg : Bool) (m : ℕ) (e : ℤ)
  | inf (neg : Bool)
  | nan
  | snan
deriving DecidableEq

/-- Exponent part of a decimal literal: optional sign then digits. -/
def parseExpPart (s : Str) : Option ℤ :=
  match s with
  | '+' :: d => if d ≠ [] ∧ d.all Char.isDigit then some (digitsToNat d) else none
  | '-' :: d => if d ≠ [] ∧ d.all Char.isDigit then some (-(digitsToNat d : ℤ)) else none
  | d => if d ≠ [] ∧ d.all Char.isDigit then some (digitsToNat d) else none

/-- Finite part of the `Decimal` constructor grammar:
digits, optional fraction, optional exponent, with at least one digit in
the integer-plus-fraction part. -/
def parseFiniteDec (s : Str) (neg : Bool) : Option PyDec :=
  let ip := s.takeWhile Char.isDigit
  let r1 := s.dropWhile Char.isDigit
  match r1 with
  | [] => if ip = [] then none else some (.fin neg (digitsToNat ip) 0)
  | '.' :: r2 =>
      let fp := r2.takeWhile Char.isDigit
      let r3 := r2.dropWhile Char.isDigit
      if ip = [] ∧ fp = [] then none
      else
        match r3 with
        | [] => some (.fin neg (digitsToNat (ip ++ fp)) (-(fp.length : ℤ)))
        | e :: r4 =>
            if e = 'e' ∨ e = 'E' then
              (parseExpPart r4).map
                (fun ex => .fin neg (digitsToNat (ip ++ fp)) (ex - fp.length))
            else none
  | e :: r4 =>
      if (e = 'e' ∨ e = 'E') ∧ ip ≠ [] then
        (parseExpPart r4).map (fun ex => .fin neg (digitsToNat ip) ex)
      else none

/-- Recognizes `nan` with an optional integer payload. -/
def isNanStr : Str → Bool
  | 'n' :: 'a' :: 'n' :: rest => rest.all Char.isDigit
  | _ => false

/-- Recognizes `snan` with an optional integer payload. -/
def isSNanStr : Str → Bool
  | 's' :: 'n' :: 'a' :: 'n' :: rest => rest.all Char.isDigit
  | _ => false

/-- Payload of the `Decimal` constructor after the optional sign. -/
def parseUnsignedDec (s : Str) (neg : Bool) : Option PyDec :=
  if lowerStr s = ("inf").toList ∨ lowerStr s = ("infinity").toList then
    some (.inf neg)
  else if isNanStr (lowerStr s) then some .nan
  else if isSNanStr (lowerStr s) then some .snan
  else parseFiniteDec s neg

/-- Model of the `decimal.Decimal` string constructor: strip whitespace,
drop underscores, optional sign, then a finite literal or one of the
special values, matched in full. -/
def parsePyDec (s : Str) : Option PyDec :=
  match (stripWs s).filter (fun c => c ≠ '_') with
  | '+' :: r => parseUnsignedDec r false
  | '-' :: r => parseUnsignedDec r true
  | r => parseUnsignedDec r false

/-- Context precision installed by both scripts (`getcontext().prec = 38`). -/
def precD : ℕ := 38

/-- Context Emax of the default decimal context. -/
def EmaxD : ℤ := 999999

/-- Context Emin of the default decimal context. -/
def EminD : ℤ := -999999

/-- Etiny = Emin - prec + 1, the least exponent before underflow to zero. -/
def EtinyD : ℤ := EminD - precD + 1

/-- Fuel-based base-ten logarithm (structural so that it evaluates by
kernel reduction; `digitCount_eq_log` relates it to `Nat.log`). -/
def log10F : ℕ → ℕ → ℕ
  | 0, _ => 0
  | fuel + 1, m => if m < 10 then 0 else log10F fuel (m / 10) + 1

/-- Number of decimal digits of a coefficient (`0` has one digit). -/
def digitCount (m : ℕ) : ℕ := if m = 0 then 1 else log10F m m + 1

/-- Round-half-even division of a coefficient by `d` (a power of ten). -/
def roundHalfEven (m d : ℕ) : ℕ :=
  let q := m / d
  let r := m % d
  if 2 * r > d then q + 1
  else if 2 * r < d then q
  else if q % 2 = 1 then q + 1 else q

/-- Errors of the exception model: `caught` stands for the exceptions the
scaling code handles (`ValueError`, `TypeError`, `InvalidOperation`), the
others escape to the caller. -/
inductive TryErr : Type
  | caught
  | decOverflow
  | overflowError
deriving DecidableEq

/-- The exceptions that `_get_scaled_numeric` can let escape:
`decimal.Overflow` (not in the except clause) and `OverflowError` from
`int()` on an infinity; `valueError` is used by the components that have
no handler at all. -/
inductive PyExc : Type
  | decOverflow
  | overflowError
  | valueError
deriving DecidableEq

/-- The exponent a nonzero exact result is rounded to: the smallest shift
that brings the coefficient within `precD` digits and the exponent to at
least `EtinyD`. -/
def decFixT (m : ℕ) (e : ℤ) : ℤ :=
  max e (max ((e + digitCount m - 1) - (precD - 1)) EtinyD)

/-- The coefficient after rounding into the context. -/
def decFixM (m : ℕ) (e : ℤ) : ℕ :=
  roundHalfEven m (10 ^ (decFixT m e - e).toNat)

/-- Rounding a finite exact result into the context (decimal `_fix`): the
coefficient is rounded half-even so that it has at most `precD` digits and
the exponent is at least `EtinyD`; a post-rounding adjusted exponent above
`EmaxD` signals Overflow, which the default context traps. -/
def decFix (neg : Bool) (m : ℕ) (e : ℤ) : Except TryErr PyDec :=
  if m = 0 then .ok (.fin neg 0 e)
  else if decFixM m e = 0 then .ok (.fin neg 0 EtinyD)
  else if decFixT m e + digitCount (decFixM m e) - 1 > EmaxD then
    .error .decOverflow
  else .ok (.fin neg (decFixM m e) (decFixT m e))

/-- Decimal multiplication under the context, with the special-value rules:
signaling NaN raises InvalidOperation (caught by the scaling code), quiet
NaN propagates, infinity times zero raises InvalidOperation, and finite
products are rounded by `decFix`. -/
def decMul : PyDec → PyDec → Except TryErr PyDec
  | .snan, _ => .error .caught
  | _, .snan => .error .caught
  | .nan, _ => .ok .nan
  | _, .nan => .ok .nan
  | .inf n1, .inf n2 => .ok (.inf (xor n1 n2))
  | .inf n1, .fin n2 m _ =>
      if m = 0 then .error .caught else .ok (.inf (xor n1 n2))
  | .fin n1 m _, .inf n2 =>
      if m = 0 then .error .caught else .ok (.inf (xor n1 n2))
  | .fin n1 m1 e1, .fin n2 m2 e2 => decFix (xor n1 n2) (m1 * m2) (e1 + e2)

/-- Model of `Decimal(10) ** p` for an integer `p`: exactly ten to the
`p`, except that an adjusted exponent above Emax traps Overflow and one
below Etiny underflows quietly to zero. -/
def decPow10 (p : ℤ) : Except TryErr PyDec :=
  if p > EmaxD then .error .decOverflow
  else if p < EtinyD then .ok (.fin false 0 EtinyD)
  else .ok (.fin false 1 p)

/-- Decimal negation (`-d`); sign flip, NaN unchanged. -/
def decNegate : PyDec → PyDec
  | .fin neg m e => .fin (!neg) m e
  | .inf neg => .inf (!neg)
  | .nan => .nan
  | .snan => .snan

/-- Exact rational value of a finite decimal, built through `mkRat` so
that it evaluates by kernel reduction (see `decValQ_eq` for the usual
power-of-ten form). -/
def decValQ (neg : Bool) (m : ℕ) (e : ℤ) : ℚ :=
  if 0 ≤ e then mkRat ((if neg then -1 else 1) * (m : ℤ) * 10 ^ e.toNat) 1
  else mkRat ((if neg then -1 else 1) * (m : ℤ)) (10 ^ (-e).toNat)

/-- Whether a finite decimal has no fractional part, the content of the
`final_value == final_value.to_integral_value()` test. -/
def isIntegralDec (m : ℕ) (e : ℤ) : Bool :=
  decide (0 ≤ e) || decide (10 ^ (-e).toNat ∣ m)

/-- The integer a whole-valued finite decimal converts to under `int()`. -/
def intValDec (neg : Bool) (m : ℕ) (e : ℤ) : ℤ :=
  (if neg then -1 else 1) *
    (if 0 ≤ e then (m : ℤ) * 10 ^ e.toNat else (m : ℤ) / 10 ^ (-e).toNat)

/-- Result of `_get_scaled_numeric`: the `N/A` passthrough, an `int`, a
`float` (tagged with the exact finite decimal handed to `float()`, or NaN),
or text passthrough. -/
inductive ScaledResult : Type
  | na
  | int (z : ℤ)
  | floatV (q : ℚ)
  | floatNan
  | text (s : Str)
deriving DecidableEq

/-- Final conversion of the scaled decimal: whole values go through
`int()` (which raises OverflowError on an infinity), signaling NaN makes
`to_integral_value` raise InvalidOperation (caught), every other value is
handed to `float()`. -/
def emitDec : PyDec → Except TryErr ScaledResult
  | .snan => .error .caught
  | .nan => .ok .floatNan
  | .inf _ => .error .overflowError
  | .fin neg m e =>
      if isIntegralDec m e then .ok (.int (intValDec neg m e))
      else .ok (.floatV (decValQ neg m e))

/-- A fact as handed to `_get_scaled_numeric`: the raw value text and the
optional `scale` and `decimals` attributes. -/
structure ValueObj : Type where
  value : Option Str
  scale : Option Str := none
  decimals : Option Str := none
deriving DecidableEq

/-- Comma removal, the first cleaning step of `_get_scaled_numeric`. -/
def cleanedOf (v : Str) : Str := v.filter (fun c => c ≠ ',')

/-- Whether the cleaned text triggers the accounting-negative branch
(starts with an opening and ends with a closing parenthesis). -/
def accNeg (cl : Str) : Bool :=
  (match cl with
   | '(' :: _ => true
   | _ => false) &&
  (match cl.getLast? with
   | some ')' => true
   | _ => false)

/-- Model of `str.strip("()")`: drop parenthesis characters from both
ends. -/
def stripParens (s : Str) : Str :=
  let isPar : Char → Bool := fun c => c = '(' || c = ')'
  ((s.dropWhile isPar).reverse.dropWhile isPar).reverse

/-- The text actually parsed as a decimal: the cleaned value, with the
parentheses stripped when the accounting-negative branch fired. -/
def coreOf (v : Str) : Str :=
  let cl := cleanedOf v
  if accNeg cl then stripParens cl else cl

/-- The scale attribute string with its default, `value_obj.get('scale', '0')`. -/
def scaleStrOf (vobj : ValueObj) : Str := vobj.scale.getD (("0").toList)

/-- The decimals attribute string with its default and the INF
normalization (`'INF'` is rewritten to `'0'` before `int()`). -/
def decStrOf (vobj : ValueObj) : Str :=
  let d := vobj.decimals.getD (("0").toList)
  if lowerStr d = ("inf").toList then ("0").toList else d

/-- The body of the `try` block: parse the cleaned text as a Decimal,
parse scale and decimals, build `Decimal(10) ** power` and multiply.
`pw` is the combined-exponent convention: subtraction in htm_parser.py,
addition in main.py. -/
def tryChainGen (pw : ℤ → ℤ → ℤ) (core scaleStr decStr : Str) :
    Except TryErr PyDec :=
  match parsePyDec core with
  | none => .error .caught
  | some base =>
      match parsePyInt scaleStr, parsePyInt decStr with
      | some s, some c =>
          match decPow10 (pw s c) with
          | .error e => .error e
          | .ok p10 => decMul base p10
      | _, _ => .error .caught

/-- The text fallback of the except clause: the raw value truncated to 75
characters with an ellipsis marker when longer. -/
def truncate75 (v : Str) : Str :=
  if v.length > 75 then v.take 75 ++ ("...").toList else v

/-- Model of `_get_scaled_numeric(value_obj)`, parameterized by the
combined-exponent convention `pw`. `Except.error` is an exception escaping
to the caller. -/
def getScaledNumericGen (pw : ℤ → ℤ → ℤ) (vobj : ValueObj) :
    Except PyExc ScaledResult :=
  match vobj.value with
  | none => .ok .na
  | some v =>
      if v = [] ∨ v = ("N/A").toList then .ok .na
      else
        match tryChainGen pw (coreOf v) (scaleStrOf vobj) (decStrOf vobj) with
        | .error .caught => .ok (.text (truncate75 v))
        | .error .decOverflow => .error .decOverflow
        | .error .overflowError => .error .overflowError
        | .ok d =>
            match emitDec (if accNeg (cleanedOf v) then decNegate d else d) with
            | .error .caught => .ok (.text (truncate75 v))
            | .error .decOverflow => .error .decOverflow
            | .error .overflowError => .error .overflowError
            | .ok r => .ok r

namespace Htm

/-- The `_get_scaled_numeric` of htm_parser.py: combined exponent
`scale - decimals`. -/
def getScaledNumeric : ValueObj → Except PyExc ScaledResult :=
  getScaledNumericGen (fun s c => s - c)

end Htm

namespace MainScript

/-- The `_get_scaled_numeric` of main.py: combined exponent
`scale + decimals`. -/
def getScaledNumeric : ValueObj → Except PyExc ScaledResult :=
  getScaledNumericGen (fun s c => s + c)

end MainScript

/-- Numeric content of a scaling outcome: the exact rational carried by an
`int` or `float` result, and `none` for text, `N/A`, NaN or an escaped
exception. -/
def numericContent : Except PyExc ScaledResult → Option ℚ
  | .ok (.int z) => some (z : ℚ)
  | .ok (.floatV q) => some q
  | _ => none

/-!
Label linkbase model (lab_parser.py).  `LabelParser.__init__` builds three
dicts: locator label to concept (keyed by the possibly missing `xlink:label`
attribute, since the code checks only the href), label element id to text
(restricted to the standard label role; text may be missing), and then the
two public indexes populated by walking the labelArc elements.
-/

/-- A `loc` element of a label linkbase: `xlink:href` and `xlink:label`. -/
structure LabLoc : Type where
  href : Option Str
  label : Option Str
deriving DecidableEq

/-- A `label` element: `xlink:role`, `xlink:label` id and its text
(`Element.text`, which may be `None`). -/
structure LabLabel : Type where
  role : Option Str
  labelId : Option Str
  text : Option Str
deriving DecidableEq

/-- A `labelArc` element: the `xlink:from` and `xlink:to` endpoints. -/
structure LabArc : Type where
  afrom : Option Str
  ato : Option Str
deriving DecidableEq

/-- The standard label role URI the code filters on. -/
def stdLabelRole : Str := ("http://www.xbrl.org/2003/role/label").toList

/-- The fragment after the last `#`, `href.split('#')[-1]`. -/
def lastFrag (s : Str) : Str :=
  ((s.splitOn '#').getLast?).getD s

/-- Python truthiness for an optional string: present and nonempty. -/
def truthy : Option Str → Bool
  | none => false
  | some [] => false
  | some (_ :: _) => true

/-- Step one of `LabelParser.__init__`: locator label to concept, keeping
any loc whose href is truthy and contains `#` (the label attribute is not
checked and may be `None`). -/
def locToConceptLab (locs : List LabLoc) : List (Option Str × Str) :=
  locs.foldl
    (fun d lc =>
      match lc.href with
      | some h => if h ≠ [] ∧ '#' ∈ h then dinsert lc.label (lastFrag h) d else d
      | none => d)
    []

/-- Step two: label element id to text, standard-label role only. -/
def labelToTextLab (labels : List LabLabel) : List (Option Str × Option Str) :=
  labels.foldl
    (fun d lb =>
      if lb.role = some stdLabelRole then dinsert lb.labelId lb.text d else d)
    []

/-- The chronological list of successful (text, concept) resolutions made
by the labelArc loop: both the concept and the text must be truthy. -/
def resolvedWrites (locs : List LabLoc) (labels : List LabLabel)
    (arcs : List LabArc) : List (Str × Str) :=
  arcs.filterMap
    (fun a =>
      match dlookup a.afrom (locToConceptLab locs),
            dlookup a.ato (labelToTextLab labels) with
      | some cpt, some txt =>
          match txt with
          | some t => if cpt ≠ [] ∧ t ≠ [] then some (t, cpt) else none
          | none => none
      | _, _ => none)

/-- The search index `label_to_concept`, keyed by lower-cased label text. -/
def buildLabelToConcept (locs : List LabLoc) (labels : List LabLabel)
    (arcs : List LabArc) : List (Str × Str) :=
  (resolvedWrites locs labels arcs).foldl
    (fun d w => dinsert (lowerStr w.1) w.2 d) []

/-- The lookup index `concept_to_label`. -/
def buildConceptToLabel (locs : List LabLoc) (labels : List LabLabel)
    (arcs : List LabArc) : List (Str × Str) :=
  (resolvedWrites locs labels arcs).foldl
    (fun d w => dinsert w.2 w.1 d) []

/-- Query tokens: lower-cased whitespace-separated words. -/
def tokensOf (q : Str) : List Str := splitWs (lowerStr q)

/-- Conjunctive substring match of all tokens against a name. -/
def matchesAll (toks : List Str) (name : Str) : Bool :=
  toks.all (fun t => containsSub t name)

/-- Model of `LabelParser.find_concepts_by_query`: walk the search index
in insertion order and collect the concepts whose (lower-cased) label
contains every query token. -/
def findConceptsByQuery (l2c : List (Str × Str)) (q : Str) : List Str :=
  l2c.foldl
    (fun acc kv => if matchesAll (tokensOf q) kv.1 then acc ++ [kv.2] else acc)
    []

/-!
Presentation linkbase model (pre_parser.py).  `find_statement_concepts`
selects a role by conjunctive substring match over the discovered role
names (already lower-cased at discovery), locates the matching
presentationLink, builds a locator map and an adjacency list of kept arcs,
and runs an ordered depth-first traversal from the root locators.

The `order` attribute is read through `float()`; the model parses it into
an exact rational (faithful for the plain decimal literals used by these
documents; binary float granularity and the non-finite float spellings are
not modelled) and a malformed attribute is the uncaught `ValueError` the
code would raise.  Recursion depth is modelled by explicit fuel standing
for the interpreter recursion limit; on the acyclic graphs of real filings
any sufficiently large fuel gives the full traversal.
-/

/-- A `loc` element of the presentation linkbase. -/
structure PLoc : Type where
  href : Option Str
  label : Option Str
deriving DecidableEq

/-- A `presentationArc` element: endpoints and the optional `order`
attribute. -/
structure PArc : Type where
  pfrom : Option Str
  pto : Option Str
  orderA : Option Str
deriving DecidableEq

/-- A `presentationLink` element with its role and contents, in document
order. -/
structure PresLink : Type where
  role : Str
  locs : List PLoc
  arcs : List PArc
deriving DecidableEq

/-- The state of a `PresentationParser`: the discovered-roles dict (keys
already lower-cased, insertion order) and the presentationLink elements in
document order. -/
structure PreDoc : Type where
  droles : List (Str × Str)
  links : List PresLink
deriving DecidableEq

/-- Model of `float(str)` restricted to finite decimal literals, giving
the exact rational value. -/
def parsePyFloatQ (s : Str) : Option ℚ :=
  match parsePyDec s with
  | some (.fin neg m e) => some (decValQ neg m e)
  | _ => none

/-- The local locator map of one presentationLink: href and label must be
truthy and the href must contain a fragment. -/
def buildLocToConceptP (locs : List PLoc) : List (Str × Str) :=
  locs.foldl
    (fun d lc =>
      match lc.href, lc.label with
      | some h, some lb =>
          if h ≠ [] ∧ lb ≠ [] ∧ '#' ∈ h then dinsert lb (lastFrag h) d else d
      | _, _ => d)
    []

/-- The order key of an arc: default 1.0 when the attribute is absent,
parsed through `float()` otherwise (a malformed value raises). -/
def orderValOf (a : PArc) : Except PyExc ℚ :=
  match a.orderA with
  | none => .ok 1
  | some s =>
      match parsePyFloatQ s with
      | some q => .ok q
      | none => .error .valueError

/-- The arc loop of `find_statement_concepts`: the order is evaluated
first (so a malformed order raises even for a dropped arc), then arcs with
truthy endpoints whose target resolves in the locator map are appended to
the adjacency dict, and the target set `all_to_locs` is recorded. -/
def buildArcs (arcs : List PArc) (locMap : List (Str × Str)) :
    Except PyExc (List (Str × List (ℚ × Str)) × List Str) :=
  arcs.foldl
    (fun st a =>
      match st with
      | .error e => .error e
      | .ok (d, tl) =>
          match orderValOf a with
          | .error e => .error e
          | .ok ord =>
              match a.pfrom, a.pto with
              | some f, some t =>
                  if f ≠ [] ∧ t ≠ [] ∧ (dlookup t locMap).isSome then
                    .ok (dAppend f (ord, t) d, tl ++ [t])
                  else .ok (d, tl)
              | _, _ => .ok (d, tl))
    (.ok ([], []))

/-- The sort order of `sorted` on the `(order, to_label)` tuples: strictly
smaller order first, ties compared on the locator label string. -/
def pairLe (x y : ℚ × Str) : Prop :=
  x.1 < y.1 ∨ (x.1 = y.1 ∧ strLeB x.2 y.2 = true)

instance : DecidableRel pairLe := fun _ _ =>
  inferInstanceAs (Decidable (_ ∨ _))

/-- The child list as `sorted(...)` produces it. -/
def sortPairs (l : List (ℚ × Str)) : List (ℚ × Str) :=
  List.insertionSort pairLe l

/-- The recursive `dfs_sort`, in accumulator style faithful to the
appended `ordered_concepts` list: emit the concept when the locator
resolves to a truthy value, then recurse into the children sorted by
`sortPairs`. -/
def dfsAcc (locMap : List (Str × Str)) (arcsD : List (Str × List (ℚ × Str))) :
    ℕ → Str → List Str → List Str
  | 0, _, acc => acc
  | fuel + 1, locId, acc =>
      let acc1 :=
        match dlookup locId locMap with
        | some c => if c = [] then acc else acc ++ [c]
        | none => acc
      (sortPairs ((dlookup locId arcsD).getD [])).foldl
        (fun a p => dfsAcc locMap arcsD fuel p.2 a) acc1

/-- Specification-side pre-order traversal, following the words of the
design: emit the node concept (if resolvable), then concatenate the
traversals of the children sorted by ascending order. -/
def preorderSpec (locMap : List (Str × Str))
    (arcsD : List (Str × List (ℚ × Str))) : ℕ → Str → List Str
  | 0, _ => []
  | fuel + 1, locId =>
      (match dlookup locId locMap with
       | some c => if c = [] then [] else [c]
       | none => []) ++
      (sortPairs ((dlookup locId arcsD).getD [])).flatMap
        (fun p => preorderSpec locMap arcsD fuel p.2)

/-- Role selection: the first discovered role whose (lower-cased) friendly
name contains every query token. -/
def findRole (roles : List (Str × Str)) (q : Str) : Option (Str × Str) :=
  roles.find? (fun kv => matchesAll (tokensOf q) kv.1)

/-- The statement pipeline after a role URI has been selected: locate the
presentationLink, build the locator map and arc graph, find the roots
(from-endpoints that are never a to-endpoint of a kept arc, in discovery
order) and run the DFS from each root in turn. -/
def processRole (fuel : ℕ) (doc : PreDoc) (uri : Str) :
    Except PyExc (List Str) :=
  match doc.links.find? (fun l => l.role = uri) with
  | none => .ok []
  | some link =>
      let locMap := buildLocToConceptP link.locs
      match buildArcs link.arcs locMap with
      | .error e => .error e
      | .ok (arcsD, toLocs) =>
          let roots := (arcsD.map Prod.fst).filter (fun l => ¬ toLocs.contains l)
          .ok (roots.foldl (fun acc r => dfsAcc locMap arcsD fuel r acc) [])

/-- Model of `PresentationParser.find_statement_concepts`. -/
def findStatementConcepts (fuel : ℕ) (doc : PreDoc) (q : Str) :
    Except PyExc (List Str) :=
  match findRole doc.droles q with
  | none => .ok []
  | some kv => processRole fuel doc kv.2

/-!
Context selection model (`XbrlParser._find_relevant_contexts`, identical
in htm_parser.py and main.py).  Contexts come from the HtmParser state as
a dict from context id to a record holding a type tag and a date string.
`datetime.fromisoformat` on the `YYYY-MM-DD` strings of these filings is
modelled as strict parsing into a (year, month, day) triple, whose
ordering coincides with the datetime ordering; a string that does not
parse makes the sort key raise, which nothing catches.
-/

/-- A parsed context record: its `type` tag and display date. -/
structure CtxInfo : Type where
  ctype : Option Str
  date : Str
deriving DecidableEq

/-- A filtered context, `{'id': ..., 'date': ...}`. -/
structure CtxSel : Type where
  id : Str
  date : Str
deriving DecidableEq

/-- Days per month in the proleptic Gregorian calendar used by
`datetime.date`. -/
def daysInMonth (y m : ℕ) : ℕ :=
  if m = 2 then
    if y % 4 = 0 ∧ (y % 100 ≠ 0 ∨ y % 400 = 0) then 29 else 28
  else if m = 4 ∨ m = 6 ∨ m = 9 ∨ m = 11 then 30
  else 31

/-- Strict `YYYY-MM-DD` parse with calendar validation, the subset of
`datetime.fromisoformat` these date strings exercise. -/
def parseIsoDate (s : Str) : Option (ℕ × ℕ × ℕ) :=
  match s with
  | [y1, y2, y3, y4, '-', m1, m2, '-', d1, d2] =>
      if [y1, y2, y3, y4, m1, m2, d1, d2].all Char.isDigit then
        let y := digitsToNat [y1, y2, y3, y4]
        let m := digitsToNat [m1, m2]
        let d := digitsToNat [d1, d2]
        if 1 ≤ m ∧ m ≤ 12 ∧ 1 ≤ d ∧ d ≤ daysInMonth y m ∧ 1 ≤ y then
          some (y, m, d)
        else none
      else none
  | _ => none

/-- Non-strict descending comparison of parsed dates (so that the stable
sort with `reverse=True` is a sort by this relation). -/
def tripleGe (a b : ℕ × ℕ × ℕ) : Prop :=
  b.1 < a.1 ∨ (b.1 = a.1 ∧ (b.2.1 < a.2.1 ∨ (b.2.1 = a.2.1 ∧ b.2.2 ≤ a.2.2)))

instance : DecidableRel tripleGe := fun _ _ =>
  inferInstanceAs (Decidable (_ ∨ _))

/-- Descending-date comparison on filtered contexts through the parsed
key, with a dummy key for unparsable dates (unreachable when every date
parses, which the sort requires anyway). -/
def ctxGe (a b : CtxSel) : Prop :=
  tripleGe ((parseIsoDate a.date).getD (0, 0, 0)) ((parseIsoDate b.date).getD (0, 0, 0))

instance : DecidableRel ctxGe := fun _ _ =>
  inferInstanceAs (Decidable (tripleGe _ _))

/-- The type filter: keep contexts whose `type` equals the target, as
`{'id': ctx_id, 'date': info['date']}` records in dict order. -/
def filtCtxs (ctxs : List (Str × CtxInfo)) (tt : Str) : List CtxSel :=
  ctxs.filterMap
    (fun kv => if kv.2.ctype = some tt then some ⟨kv.1, kv.2.date⟩ else none)

/-- The query classification: instant for balance-sheet or goodwill
queries, duration otherwise. -/
def targetTypeOf (q : Str) : Str :=
  if containsSub (("balance sheet").toList) (lowerStr q) ||
     containsSub (("goodwill").toList) (lowerStr q) then
    ("instant").toList
  else ("duration").toList

/-- The sort step: every sort key is computed up front (any unparsable
date raises), then a stable descending sort by date. -/
def sortCtxsDesc (l : List CtxSel) : Option (List CtxSel) :=
  if l.all (fun cx => (parseIsoDate cx.date).isSome) then
    some (List.insertionSort ctxGe l)
  else none

/-- The deduplication loop over the sorted contexts: append the id of the
first context of each unseen date, stopping as soon as `num_contexts` ids
have been collected (the check runs at the end of each iteration, matching
the `break` placement). -/
def pickLoop : List CtxSel → List Str → List Str → ℕ → List Str
  | [], _, acc, _ => acc
  | cx :: rest, seen, acc, n =>
      if cx.date ∈ seen then
        if acc.length ≥ n then acc else pickLoop rest seen acc n
      else
        let acc' := acc ++ [cx.id]
        if acc'.length ≥ n then acc' else pickLoop rest (seen ++ [cx.date]) acc' n

/-- Model of `_find_relevant_contexts(query, num_contexts)`. -/
def findRelevantContexts (ctxs : List (Str × CtxInfo)) (q : Str) (n : ℕ) :
    Except PyExc (List Str) :=
  let filtered := filtCtxs ctxs (targetTypeOf q)
  if filtered = [] then .ok []
  else
    match sortCtxsDesc filtered with
    | none => .error .valueError
    | some sorted => .ok (pickLoop sorted [] [] n)

/-- The distinct dates of a context list that are not in `seen`, in order
of first appearance. -/
def newDates : List CtxSel → List Str → List Str
  | [], _ => []
  | cx :: rest, seen =>
      if cx.date ∈ seen then newDates rest seen
      else cx.date :: newDates rest (seen ++ [cx.date])

/-- Specification-side selection: the first `n` distinct dates of the
sorted list, each mapped to the id of its first context. -/
def specSelect (sorted : List CtxSel) (n : ℕ) : List Str :=
  ((newDates sorted []).take n).filterMap
    (fun d => (sorted.find? (fun cx => cx.date = d)).map (fun cx => cx.id))

/-- Recursive reading of the deduplication loop used to relate `pickLoop`
to `specSelect`: collect the id of the first context of each unseen date
until `k` ids have been taken. -/
def specPick : List CtxSel → List Str → ℕ → List Str
  | [], _, _ => []
  | cx :: rest, seen, k =>
      if cx.date ∈ seen then specPick rest seen k
      else cx.id ::
        (if k - 1 = 0 then [] else specPick rest (seen ++ [cx.date]) (k - 1))

/-- Canonical dict build from a chronological write list. -/
def dbuild {K V : Type} [DecidableEq K] (ws : List (K × V)) : List (K × V) :=
  ws.foldl (fun d w => dinsert w.1 w.2 d) []

instance : IsTotal (ℚ × Str) pairLe :=
  ⟨by
    have ht : ∀ x y : Str, strLeB x y = true ∨ strLeB y x = true := by
      intro x
      induction x with
      | nil => intro y; left; simp [strLeB]
      | cons c cs ih =>
        intro y
        cases y with
        | nil => right; simp [strLeB]
        | cons d ds =>
          by_cases h1 : c.toNat < d.toNat
          · left; simp [strLeB, h1]
          · by_cases h2 : d.toNat < c.toNat
            · right; simp [strLeB, h1, h2]
            · rcases ih ds with hx | hx
              · left; simp [strLeB, h1, h2, hx]
              · right; simp [strLeB, h1, h2, hx]
    intro a b
    rcases lt_trichotomy a.1 b.1 with h | h | h
    · exact Or.inl (Or.inl h)
    · rcases ht a.2 b.2 with hs | hs
      · exact Or.inl (Or.inr ⟨h, hs⟩)
      · exact Or.inr (Or.inr ⟨h.symm, hs⟩)
    · exact Or.inr (Or.inl h)⟩

instance : IsTrans (ℚ × Str) pairLe :=
  ⟨by
    have htr : ∀ x y z : Str, strLeB x y = true → strLeB y z = true →
        strLeB x z = true := by
      intro x
      induction x with
      | nil => intro y z _ _; simp [strLeB]
      | cons c cs ih =>
        intro y z hxy hyz
        cases y with
        | nil => simp [strLeB] at hxy
        | cons d ds =>
          cases z with
          | nil => simp [strLeB] at hyz
          | cons e es =>
            simp only [strLeB] at hxy hyz ⊢
            rcases lt_trichotomy c.toNat d.toNat with h1 | h1 | h1
            · rcases lt_trichotomy d.toNat e.toNat with h2 | h2 | h2
              · have hce : c.toNat < e.toNat := h1.trans h2
                simp [hce]
              · have hce : c.toNat < e.toNat := h2 ▸ h1
                simp [hce]
              · have hn1 : ¬ d.toNat < e.toNat := by omega
                simp [hn1, h2] at hyz
            · have hn1 : ¬ c.toNat < d.toNat := by omega
              have hn2 : ¬ d.toNat < c.toNat := by omega
              simp only [hn1, hn2, if_false, if_neg, not_false_iff] at hxy
              rcases lt_trichotomy d.toNat e.toNat with h2 | h2 | h2
              · have hce : c.toNat < e.toNat := by omega
                simp [hce]
              · have hn3 : ¬ c.toNat < e.toNat := by omega
                have hn4 : ¬ e.toNat < c.toNat := by omega
                have hn5 : ¬ d.toNat < e.toNat := by omega
                have hn6 : ¬ e.toNat < d.toNat := by omega
                simp only [hn5, hn6, if_false, if_neg, not_false_iff] at hyz
                simp only [hn3, hn4, if_false, if_neg, not_false_iff]
                exact ih ds es hxy hyz
              · have hn5 : ¬ d.toNat < e.toNat := by omega
                simp [hn5, h2] at hyz
            · have hn1 : ¬ c.toNat < d.toNat := by omega
              simp [hn1, h1] at hxy
    intro a b c hab hbc
    rcases hab with h | ⟨h, hs⟩
    · rcases hbc with h' | ⟨h', hs'⟩
      · exact Or.inl (h.trans h')
      · exact Or.inl (h'.symm ▸ h)
    · rcases hbc with h' | ⟨h', hs'⟩
      · exact Or.inl (h ▸ h')
      · exact Or.inr ⟨h.trans h', htr _ _ _ hs hs'⟩⟩

instance : IsTotal (ℕ × ℕ × ℕ) tripleGe :=
  ⟨fun a b => by simp only [tripleGe]; omega⟩

instance : IsTrans (ℕ × ℕ × ℕ) tripleGe :=
  ⟨fun a b c hab hbc => by
    simp only [tripleGe] at hab hbc ⊢
    omega⟩

instance : IsTotal CtxSel ctxGe :=
  ⟨fun a b => by simp only [ctxGe, tripleGe]; omega⟩

instance : IsTrans CtxSel ctxGe :=
  ⟨fun a b c hab hbc => by
    simp only [ctxGe, tripleGe] at hab hbc ⊢
    omega⟩

/-!
Concrete documents and value objects used by the witnesses and
counterexamples below.
-/

/-- The fact on which the two scaling revisions disagree: value 100 with
scale 2 and decimals -2. -/
def vObjC2 : ValueObj :=
  ⟨some (("100").toList), some (("2").toList), some (("-2").toList)⟩

/-- A fact whose value parses to a decimal but whose scale pushes the
power of ten past the decimal context Emax. -/
def vObjC1 : ValueObj :=
  ⟨some (("1").toList), some (("1000000").toList), some (("0").toList)⟩

/-- A fact whose value text is the decimal literal Infinity. -/
def vObjC6 : ValueObj := ⟨some (("Infinity").toList), none, none⟩

/-- A presentation document with one role and one parent whose two
children have equal order 1; the arc to locator B precedes the arc to
locator A in document order. -/
def docC3 : PreDoc :=
  { droles := [(("myrole").toList, ("u1").toList)],
    links := [{ role := ("u1").toList,
                locs := [⟨some (("f#CP").toList), some (("P").toList)⟩,
                         ⟨some (("f#CB").toList), some (("B").toList)⟩,
                         ⟨some (("f#CA").toList), some (("A").toList)⟩],
                arcs := [⟨some (("P").toList), some (("B").toList),
                          some (("1").toList)⟩,
                         ⟨some (("P").toList), some (("A").toList),
                          some (("1").toList)⟩] }] }

/-- The presentationLink of the two-root witness document. -/
def linkC4 : PresLink :=
  { role := ("u").toList,
    locs := [⟨some (("f#CR1").toList), some (("R1").toList)⟩,
             ⟨some (("f#CA").toList), some (("A").toList)⟩,
             ⟨some (("f#CB").toList), some (("B").toList)⟩,
             ⟨some (("f#CR2").toList), some (("R2").toList)⟩,
             ⟨some (("f#CC").toList), some (("C").toList)⟩],
    arcs := [⟨some (("R1").toList), some (("A").toList), some (("2").toList)⟩,
             ⟨some (("R1").toList), some (("B").toList), some (("1").toList)⟩,
             ⟨some (("R2").toList), some (("C").toList), none⟩] }

/-- A presentation document with two root nodes in its single role. -/
def docC4 : PreDoc :=
  { droles := [(("statement1").toList, ("u").toList)], links := [linkC4] }

/-- A presentation document whose roles exercise first-match selection. -/
def docC5 : PreDoc :=
  { droles := [(("cover").toList, ("u0").toList),
               (("condensedconsolidatedbalancesheets").toList, ("u1").toList),
               (("balancesheetsparenthetical").toList, ("u2").toList)],
    links := [] }

/-- A label search index with two earnings-per-share labels. -/
def idxC7 : List (Str × Str) :=
  [((("earnings per share, basic").toList), ("E1").toList),
   ((("earnings per share, diluted").toList), ("E2").toList),
   ((("revenues").toList), ("R1").toList)]

/-- Contexts with two duration contexts sharing the most recent date (one
of them standing for a dimensionally qualified duplicate), an older
duration context and an instant context. -/
def ctxsC8 : List (Str × CtxInfo) :=
  [((("c1").toList), ⟨some (("duration").toList), ("2025-03-31").toList⟩),
   ((("c2").toList), ⟨some (("duration").toList), ("2025-03-31").toList⟩),
   ((("c3").toList), ⟨some (("duration").toList), ("2024-12-31").toList⟩),
   ((("c4").toList), ⟨some (("instant").toList), ("2025-03-31").toList⟩)]

/-- The accounting-negative fact of claim C9. -/
def vObjC9 : ValueObj := ⟨some (("(1,234)").toList), none, none⟩

deriving instance DecidableEq for Except

instance : DecidableEq (List (Str × List (ℚ × Str))) := instDecidableEqList

instance : DecidableEq (List (Str × List (ℚ × Str)) × List Str) :=
  instDecidableEqProd

/-!
Theorems.  General association-list (dict) lemmas first, then one theorem
per claim, each preceded by a doc comment naming the claim.
-/

theorem dlookup_cons {K V : Type} [DecidableEq K] (a : K) (b : V) (t : List (K × V))
    (k : K) : dlookup k ((a, b) :: t) = if a = k then some b else dlookup k t := by
  by_cases h : a = k <;> simp [dlookup, List.find?, h]

theorem dlookup_dinsert {K V : Type} [DecidableEq K] (k k' : K) (v : V)
    (d : List (K × V)) :
    dlookup k' (dinsert k v d) = if k = k' then some v else dlookup k' d := by
  induction d with
  | nil =>
      by_cases h : k = k' <;> simp [dinsert, dlookup, List.find?, h]
  | cons hd tl ih =>
      obtain ⟨a, b⟩ := hd
      simp only [dinsert]
      by_cases h : a = k
      · subst h
        rw [if_pos rfl, dlookup_cons, dlookup_cons]
        by_cases h2 : a = k' <;> simp [h2]
      · rw [if_neg h, dlookup_cons, dlookup_cons, ih]
        by_cases h2 : a = k'
        · subst h2
          have hka : ¬ k = a := fun hh => h hh.symm
          simp [hka]
        · simp [h2]

theorem mem_keys_dinsert {K V : Type} [DecidableEq K] (x k : K) (v : V)
    (d : List (K × V)) :
    x ∈ (dinsert k v d).map Prod.fst ↔ x = k ∨ x ∈ d.map Prod.fst := by
  induction d with
  | nil => simp [dinsert]
  | cons hd tl ih =>
      obtain ⟨a, b⟩ := hd
      simp only [dinsert]
      by_cases h : a = k
      · subst h
        rw [if_pos rfl]
        simp
      · rw [if_neg h]
        simp only [List.map_cons, List.mem_cons, ih]
        tauto

theorem nodup_keys_dinsert {K V : Type} [DecidableEq K] (k : K) (v : V)
    (d : List (K × V)) (h : (d.map Prod.fst).Nodup) :
    ((dinsert k v d).map Prod.fst).Nodup := by
  induction d with
  | nil => simp [dinsert]
  | cons hd tl ih =>
      obtain ⟨a, b⟩ := hd
      simp only [List.map_cons, List.nodup_cons] at h
      simp only [dinsert]
      by_cases hak : a = k
      · subst hak
        rw [if_pos rfl]
        simp only [List.map_cons, List.nodup_cons]
        exact ⟨h.1, h.2⟩
      · rw [if_neg hak]
        simp only [List.map_cons, List.nodup_cons]
        constructor
        · intro hmem
          rcases (mem_keys_dinsert a k v tl).mp hmem with h1 | h1
          · exact hak h1
          · exact h.1 h1
        · exact ih h.2

theorem dlookup_foldl_none {K V : Type} [DecidableEq K] (ws : List (K × V)) :
    ∀ (d : List (K × V)) (k : K), lastWrite k ws = none →
      dlookup k (ws.foldl (fun d w => dinsert w.1 w.2 d) d) = dlookup k d := by
  induction ws with
  | nil => intro d k _; rfl
  | cons w ws ih =>
      intro d k h
      simp only [lastWrite] at h
      rcases hw : lastWrite k ws with _ | v
      · rw [hw] at h
        have hne : ¬ w.1 = k := by
          by_contra hc
          simp [hc] at h
        simp only [List.foldl_cons]
        rw [ih _ k hw, dlookup_dinsert]
        simp [hne]
      · rw [hw] at h
        simp at h

theorem dlookup_foldl_some {K V : Type} [DecidableEq K] (ws : List (K × V)) :
    ∀ (d : List (K × V)) (k : K) (v : V), lastWrite k ws = some v →
      dlookup k (ws.foldl (fun d w => dinsert w.1 w.2 d) d) = some v := by
  induction ws with
  | nil => intro d k v h; simp [lastWrite] at h
  | cons w ws ih =>
      intro d k v h
      simp only [lastWrite] at h
      rcases hw : lastWrite k ws with _ | v'
      · rw [hw] at h
        have hk : w.1 = k ∧ w.2 = v := by
          by_cases hc : w.1 = k
          · simp [hc] at h
            exact ⟨hc, h⟩
          · simp [hc] at h
        simp only [List.foldl_cons]
        rw [dlookup_foldl_none ws _ k hw, dlookup_dinsert]
        simp [hk.1, hk.2]
      · rw [hw] at h
        simp only [Option.some.injEq] at h
        subst h
        simp only [List.foldl_cons]
        exact ih _ k v' hw

theorem dlookup_dbuild {K V : Type} [DecidableEq K] (ws : List (K × V)) (k : K) :
    dlookup k (dbuild ws) = lastWrite k ws := by
  rcases h : lastWrite k ws with _ | v
  · rw [dbuild, dlookup_foldl_none ws [] k h]
    rfl
  · exact dlookup_foldl_some ws [] k v h

theorem nodup_keys_dbuild {K V : Type} [DecidableEq K] (ws : List (K × V)) :
    ((dbuild ws).map Prod.fst).Nodup := by
  have gen : ∀ (d : List (K × V)), (d.map Prod.fst).Nodup →
      ((ws.foldl (fun d w => dinsert w.1 w.2 d) d).map Prod.fst).Nodup := by
    induction ws with
    | nil => intro d h; exact h
    | cons w ws ih =>
        intro d h
        simp only [List.foldl_cons]
        exact ih _ (nodup_keys_dinsert w.1 w.2 d h)
  exact gen [] (by simp)

theorem filter_key_len_le_one {K V : Type} [DecidableEq K] (d : List (K × V))
    (k : K) (h : (d.map Prod.fst).Nodup) :
    (d.filter (fun kv => kv.1 = k)).length ≤ 1 := by
  induction d with
  | nil => simp
  | cons hd tl ih =>
      simp only [List.map_cons, List.nodup_cons] at h
      by_cases hk : hd.1 = k
      · have hnil : tl.filter (fun kv => decide (kv.1 = k)) = [] := by
          rw [List.filter_eq_nil_iff]
          intro kv hkv
          simp only [decide_eq_true_eq]
          intro hc
          exact h.1 (hk ▸ hc ▸ List.mem_map_of_mem Prod.fst hkv)
        simp [List.filter_cons, hk, hnil]
      · have hd2 : (decide (hd.1 = k)) = false := by simp [hk]
        simp only [List.filter_cons, hd2, Bool.false_eq_true, if_false, if_neg,
          not_false_iff]
        exact ih h.2

theorem log10F_eq (fuel m : ℕ) (h : m ≤ fuel) : log10F fuel m = Nat.log 10 m := by
  induction fuel generalizing m with
  | zero =>
      interval_cases m
      simp [log10F]
  | succ f ih =>
      by_cases h10 : m < 10
      · rw [log10F, if_pos h10]
        exact (Nat.log_eq_zero_iff.mpr (Or.inl h10)).symm
      · have hm : m / 10 ≤ f := by omega
        have h2 : ¬ m < 10 := h10
        simp only [log10F, h2, if_false, if_neg, not_false_iff, ih _ hm]
        rw [Nat.log_div_base]
        have hlog : 1 ≤ Nat.log 10 m := by
          rw [Nat.one_le_iff_ne_zero]
          intro hz
          rw [Nat.log_eq_zero_iff] at hz
          omega
        omega

theorem digitCount_eq_log (m : ℕ) (hm : m ≠ 0) :
    digitCount m = Nat.log 10 m + 1 := by
  rw [digitCount, if_neg hm, log10F_eq m m le_rfl]

theorem decValQ_eq (neg : Bool) (m : ℕ) (e : ℤ) :
    decValQ neg m e = (if neg then -1 else 1) * (m : ℚ) * (10 : ℚ) ^ e := by
  unfold decValQ
  by_cases h : 0 ≤ e
  · rw [if_pos h, Rat.mkRat_eq_div]
    push_cast
    rw [← zpow_natCast (10 : ℚ) e.toNat, Int.toNat_of_nonneg h]
    field_simp
  · rw [if_neg h, Rat.mkRat_eq_div]
    push_cast
    have he : e = -((-e).toNat : ℤ) := by omega
    rw [he, zpow_neg, zpow_natCast]
    field_simp
    have h3 : -e ⊔ 0 = -e := by omega
    rw [h3]

/-- Claim C2: the two observed revisions of the scaling computation (the
combined exponent is `scale - decimals` in htm_parser.py but
`scale + decimals` in main.py) are not extensionally equal: a fact whose
value parses as a number and whose decimals attribute is nonzero gets
different results from the two functions. -/
theorem claimC2_divergence :
    ∃ vobj : ValueObj, ∃ d : PyDec,
      parsePyDec (coreOf ((vobj.value).getD [])) = some d ∧
      parsePyInt (decStrOf vobj) ≠ some 0 ∧
      Htm.getScaledNumeric vobj ≠ MainScript.getScaledNumeric vobj :=
  ⟨vObjC2, .fin false 100 0, by decide, by decide, by decide⟩

/-- Claim C3 counterexample: in `docC3` the two child arcs of parent P
carry the same order key 1 and the arc to locator B precedes the arc to
locator A in document order, yet the traversal emits concept CA before CB
(`sorted` on the (order, locator-label) tuples breaks the tie by comparing
the label strings, so document order is not preserved). -/
theorem claimC3_cex :
    findStatementConcepts 5 docC3 (("myrole").toList) =
      .ok [("CP").toList, ("CA").toList, ("CB").toList] ∧
    findStatementConcepts 5 docC3 (("myrole").toList) ≠
      .ok [("CP").toList, ("CB").toList, ("CA").toList] :=
  ⟨by decide, by decide⟩

/-- Claim C3 (amended): within one parent, `find_statement_concepts`
visits children in ascending order of the pair (order key, to-endpoint
locator label): the child list a node traverses is exactly `sortPairs` of
its kept arcs, and `sortPairs` produces a permutation of those arcs that
is sorted under `pairLe`, whose tie-break on equal order keys is the
lexicographic comparison of the locator labels, not document order. -/
theorem claimC3_amended :
    (∀ l : List (ℚ × Str),
        (sortPairs l).Pairwise pairLe ∧ List.Perm (sortPairs l) l) ∧
    (∀ (locMap : List (Str × Str)) (arcsD : List (Str × List (ℚ × Str)))
        (fuel : ℕ) (locId : Str) (acc : List Str),
        dfsAcc locMap arcsD (fuel + 1) locId acc =
          (sortPairs ((dlookup locId arcsD).getD [])).foldl
            (fun a p => dfsAcc locMap arcsD fuel p.2 a)
            (match dlookup locId locMap with
             | some c => if c = [] then acc else acc ++ [c]
             | none => acc)) := by
  constructor
  · intro l
    exact ⟨List.sorted_insertionSort pairLe l, List.perm_insertionSort pairLe l⟩
  · intro locMap arcsD fuel locId acc
    rfl

theorem findConcepts_aux (p : Str × Str → Bool) :
    ∀ (l : List (Str × Str)) (acc : List Str),
      l.foldl (fun acc kv => if p kv then acc ++ [kv.2] else acc) acc =
        acc ++ (l.filter p).map Prod.snd := by
  intro l
  induction l with
  | nil => intro acc; simp
  | cons hd tl ih =>
      intro acc
      by_cases h : p hd
      · simp only [List.foldl_cons, List.filter_cons, h, if_true, if_pos]
        rw [ih]
        simp
      · simp only [List.foldl_cons, List.filter_cons, h, if_false, Bool.false_eq_true,
          if_neg, not_false_iff]
        exact ih acc

/-- Claim C7: `find_concepts_by_query` returns exactly the concepts, in
the search-index insertion order, whose lower-cased label contains every
lower-cased whitespace-separated query token as a substring; when the
query tokenizes to the empty word list, every indexed concept is
returned. -/
theorem claimC7_conjunctive (l2c : List (Str × Str)) (q : Str) :
    findConceptsByQuery l2c q =
      (l2c.filter (fun kv => matchesAll (tokensOf q) kv.1)).map Prod.snd ∧
    (tokensOf q = [] → findConceptsByQuery l2c q = l2c.map Prod.snd) := by
  have h1 : findConceptsByQuery l2c q =
      (l2c.filter (fun kv => matchesAll (tokensOf q) kv.1)).map Prod.snd := by
    unfold findConceptsByQuery
    rw [findConcepts_aux]
    simp
  refine ⟨h1, fun ht => ?_⟩
  rw [h1]
  have hall : ∀ kv ∈ l2c, matchesAll (tokensOf q) kv.1 = true := by
    intro kv _
    rw [ht]
    rfl
  rw [List.filter_eq_self.mpr hall]

/-- Claim C7 witness: on a concrete index, the query finds exactly the two
earnings-per-share concepts, and the empty query returns every concept. -/
theorem claimC7_witness :
    findConceptsByQuery idxC7 (("earnings per share").toList) =
      [("E1").toList, ("E2").toList] ∧
    findConceptsByQuery idxC7 [] =
      [("E1").toList, ("E2").toList, ("R1").toList] := by
  constructor
  · rw [(claimC7_conjunctive idxC7 (("earnings per share").toList)).1]
    decide
  · rw [(claimC7_conjunctive idxC7 []).2 (by decide)]
    decide

/-- Claim C10: the `label_to_concept` search index is keyed by lower-cased
label text with Python dict overwrite semantics, so its keys are distinct,
a lookup returns the concept written by the last labelArc whose lower-cased
text equals the key (two distinct concepts with labels equal after
lower-casing collapse to the later one), the index holds at most one entry
per lower-cased label (hence `find_concepts_by_query` returns at most one
concept per distinct lower-cased label text), while `concept_to_label` is
keyed by concept and keeps an entry for each written concept. -/
theorem claimC10_lastWriteWins (locs : List LabLoc) (labels : List LabLabel)
    (arcs : List LabArc) :
    ((buildLabelToConcept locs labels arcs).map Prod.fst).Nodup ∧
    (∀ k, dlookup k (buildLabelToConcept locs labels arcs) =
        lastWrite k ((resolvedWrites locs labels arcs).map
          (fun w => (lowerStr w.1, w.2)))) ∧
    (∀ c, dlookup c (buildConceptToLabel locs labels arcs) =
        lastWrite c ((resolvedWrites locs labels arcs).map
          (fun w => (w.2, w.1)))) ∧
    (∀ k, ((buildLabelToConcept locs labels arcs).filter
        (fun kv => kv.1 = k)).length ≤ 1) := by
  have hb : buildLabelToConcept locs labels arcs =
      dbuild ((resolvedWrites locs labels arcs).map
        (fun w => (lowerStr w.1, w.2))) := by
    unfold buildLabelToConcept dbuild
    rw [List.foldl_map]
  have hc : buildConceptToLabel locs labels arcs =
      dbuild ((resolvedWrites locs labels arcs).map (fun w => (w.2, w.1))) := by
    unfold buildConceptToLabel dbuild
    rw [List.foldl_map]
  refine ⟨?_, ?_, ?_, ?_⟩
  · rw [hb]
    exact nodup_keys_dbuild _
  · intro k
    rw [hb]
    exact dlookup_dbuild _ k
  · intro c
    rw [hc]
    exact dlookup_dbuild _ c
  · intro k
    refine filter_key_len_le_one _ k ?_
    rw [hb]
    exact nodup_keys_dbuild _

theorem find?_first {α : Type} (p : α → Bool) (pre : List α) (kv : α)
    (post : List α) (hkv : p kv = true) (hpre : ∀ x ∈ pre, p x = false) :
    (pre ++ kv :: post).find? p = some kv := by
  induction pre with
  | nil => simp [List.find?_cons_of_pos, hkv]
  | cons a t ih =>
      rw [List.cons_append, List.find?_cons_of_neg]
      · exact ih (fun x hx => hpre x (List.mem_cons_of_mem a hx))
      · simp [hpre a (List.mem_cons_self a t)]

/-- Claim C5: `find_statement_concepts` selects the first discovered role
(in role-discovery order) whose lower-cased friendly name contains all
lower-cased query tokens as substrings, continuing the pipeline with that
role URI, and returns the empty list when no discovered role matches. -/
theorem claimC5_firstMatch (fuel : ℕ) (doc : PreDoc) (q : Str) :
    ((∀ kv ∈ doc.droles, matchesAll (tokensOf q) kv.1 = false) →
      findStatementConcepts fuel doc q = .ok []) ∧
    (∀ pre kv post,
      doc.droles = pre ++ kv :: post →
      matchesAll (tokensOf q) kv.1 = true →
      (∀ kv' ∈ pre, matchesAll (tokensOf q) kv'.1 = false) →
      findStatementConcepts fuel doc q = processRole fuel doc kv.2) := by
  constructor
  · intro hall
    have hnone : findRole doc.droles q = none := by
      rw [findRole, List.find?_eq_none]
      intro kv hkv
      simp [hall kv hkv]
    unfold findStatementConcepts
    rw [hnone]
  · intro pre kv post hsp hkv hpre
    have hsome : findRole doc.droles q = some kv := by
      rw [findRole, hsp]
      exact find?_first _ pre kv post hkv hpre
    unfold findStatementConcepts
    rw [hsome]

/-- Claim C5 witness: a query matching no role yields the empty list, and
a balance-sheet query selects the first role containing both tokens even
though a later role also matches. -/
theorem claimC5_witness :
    findStatementConcepts 3 docC5 (("zzz top").toList) = .ok [] ∧
    findStatementConcepts 3 docC5 (("balance sheet").toList) =
      processRole 3 docC5 (("u1").toList) := by
  constructor
  · exact (claimC5_firstMatch 3 docC5 (("zzz top").toList)).1 (by decide)
  · exact (claimC5_firstMatch 3 docC5 (("balance sheet").toList)).2
      [((("cover").toList), ("u0").toList)]
      ((("condensedconsolidatedbalancesheets").toList), ("u1").toList)
      [((("balancesheetsparenthetical").toList), ("u2").toList)]
      rfl (by decide) (by decide)

theorem dfsAcc_eq (locMap : List (Str × Str))
    (arcsD : List (Str × List (ℚ × Str))) :
    ∀ (fuel : ℕ) (loc : Str) (acc : List Str),
      dfsAcc locMap arcsD fuel loc acc =
        acc ++ preorderSpec locMap arcsD fuel loc := by
  intro fuel
  induction fuel with
  | zero => intro loc acc; simp [dfsAcc, preorderSpec]
  | succ f ih =>
      intro loc acc
      have hfold : ∀ (cs : List (ℚ × Str)) (a : List Str),
          cs.foldl (fun a p => dfsAcc locMap arcsD f p.2 a) a =
            a ++ cs.flatMap (fun p => preorderSpec locMap arcsD f p.2) := by
        intro cs
        induction cs with
        | nil => intro a; simp
        | cons c ct ihc =>
            intro a
            simp only [List.foldl_cons]
            rw [ih, ihc, List.flatMap_cons, List.append_assoc]
      simp only [dfsAcc, preorderSpec]
      rw [hfold]
      rcases hm : dlookup loc locMap with _ | c
      · simp
      · by_cases hc : c = []
        · simp [hc]
        · simp [hc, List.append_assoc]

theorem rootsFold_eq (locMap : List (Str × Str))
    (arcsD : List (Str × List (ℚ × Str))) (fuel : ℕ) :
    ∀ (roots : List Str) (acc : List Str),
      roots.foldl (fun acc r => dfsAcc locMap arcsD fuel r acc) acc =
        acc ++ roots.flatMap (fun r => preorderSpec locMap arcsD fuel r) := by
  intro roots
  induction roots with
  | nil => intro acc; simp
  | cons r rs ih =>
      intro acc
      simp only [List.foldl_cons]
      rw [dfsAcc_eq, ih, List.flatMap_cons, List.append_assoc]

/-- Claim C4: for a presentation role that resolves to a link, the result
of `find_statement_concepts` is exactly the concatenation, in
root-discovery order, of each root locator's depth-first pre-order
traversal, where the roots are the from-endpoints of kept arcs that are
never a to-endpoint of a kept arc, and each node emits its concept (when
its locator resolves) before recursing into its children sorted by
ascending order. -/
theorem claimC4_preorder (fuel : ℕ) (doc : PreDoc) (q : Str)
    (kv : Str × Str) (link : PresLink)
    (arcsD : List (Str × List (ℚ × Str))) (toLocs : List Str)
    (h1 : findRole doc.droles q = some kv)
    (h2 : doc.links.find? (fun l => l.role = kv.2) = some link)
    (h3 : buildArcs link.arcs (buildLocToConceptP link.locs) =
      .ok (arcsD, toLocs)) :
    findStatementConcepts fuel doc q =
      .ok (((arcsD.map Prod.fst).filter
          (fun l => ¬ toLocs.contains l)).flatMap
        (fun r => preorderSpec (buildLocToConceptP link.locs) arcsD fuel r)) := by
  have e1 : findStatementConcepts fuel doc q = processRole fuel doc kv.2 := by
    unfold findStatementConcepts
    rw [h1]
  rw [e1]
  unfold processRole
  simp only [h2, h3]
  rw [rootsFold_eq]
  simp

/-- Claim C4 witness: a role with two roots produces the concatenation of
both pre-order traversals, each root emitting its own concept first and
visiting its children by ascending order. -/
theorem claimC4_witness :
    findStatementConcepts 10 docC4 (("statement1").toList) =
      .ok [("CR1").toList, ("CB").toList, ("CA").toList,
           ("CR2").toList, ("CC").toList] := by
  have h := claimC4_preorder 10 docC4 (("statement1").toList)
      ((("statement1").toList), ("u").toList) linkC4
      [((("R1").toList), [((2 : ℚ), ("A").toList), ((1 : ℚ), ("B").toList)]),
       ((("R2").toList), [((1 : ℚ), ("C").toList)])]
      [("A").toList, ("B").toList, ("C").toList]
      (by decide) (by decide) (by decide)
  exact h.trans (by decide)

theorem newDates_not_mem : ∀ (l : List CtxSel) (seen : List Str) (d : Str),
    d ∈ newDates l seen → d ∉ seen := by
  intro l
  induction l with
  | nil => intro seen d h; simp [newDates] at h
  | cons cx rest ih =>
      intro seen d h
      by_cases hm : cx.date ∈ seen
      · rw [newDates, if_pos hm] at h
        exact ih seen d h
      · rw [newDates, if_neg hm] at h
        rcases List.mem_cons.mp h with h1 | h1
        · exact h1 ▸ hm
        · intro hds
          exact ih _ d h1 (List.mem_append_left _ hds)

theorem pickLoop_eq_specPick :
    ∀ (l : List CtxSel) (seen : List Str) (acc : List Str) (n : ℕ),
      acc.length < n →
      pickLoop l seen acc n = acc ++ specPick l seen (n - acc.length) := by
  intro l
  induction l with
  | nil => intro seen acc n _; simp [pickLoop, specPick]
  | cons cx rest ih =>
      intro seen acc n hlt
      by_cases hm : cx.date ∈ seen
      · rw [pickLoop, if_pos hm, if_neg (by omega), specPick, if_pos hm]
        exact ih seen acc n hlt
      · rw [pickLoop, if_neg hm, specPick, if_neg hm]
        by_cases hstop : (acc ++ [cx.id]).length ≥ n
        · have hn1 : n - acc.length - 1 = 0 := by
            simp only [List.length_append, List.length_cons,
              List.length_nil] at hstop
            omega
          rw [if_pos hstop, hn1, if_pos rfl]
        · have hlen : (acc ++ [cx.id]).length < n := by omega
          rw [if_neg hstop, ih _ _ n hlen]
          have hk : n - (acc ++ [cx.id]).length = n - acc.length - 1 := by
            simp only [List.length_append, List.length_cons, List.length_nil]
            omega
          have hk0 : ¬ n - acc.length - 1 = 0 := by
            simp only [List.length_append, List.length_cons,
              List.length_nil] at hstop
            omega
          rw [hk, if_neg hk0]
          simp

theorem specPick_eq_take :
    ∀ (l : List CtxSel) (seen : List Str) (k : ℕ), 1 ≤ k →
      specPick l seen k =
        ((newDates l seen).take k).filterMap
          (fun d => (l.find? (fun cx => cx.date = d)).map (fun cx => cx.id)) := by
  intro l
  induction l with
  | nil => intro seen k _; simp [specPick, newDates]
  | cons cx rest ih =>
      intro seen k hk
      by_cases hm : cx.date ∈ seen
      · rw [specPick, if_pos hm, newDates, if_pos hm, ih seen k hk]
        apply List.filterMap_congr
        intro d hd
        have hdm : d ∈ newDates rest seen := List.mem_of_mem_take hd
        have hne : ¬ (cx.date = d) := by
          intro he
          exact newDates_not_mem rest seen d hdm (he ▸ hm)
        rw [List.find?_cons_of_neg]
        simp [hne]
  
      · rw [specPick, if_neg hm, newDates, if_neg hm]
        obtain ⟨k', rfl⟩ : ∃ k', k = k' + 1 := ⟨k - 1, by omega⟩
        rw [List.take_succ_cons, List.filterMap_cons]
        rw [List.find?_cons_of_pos _ (by simp)]
        simp only [Option.map_some']
        by_cases hk0 : k' = 0
        · subst hk0
          simp [specPick]
        · have hk1 : 1 ≤ k' := by omega
          have hstep : k' + 1 - 1 = k' := by omega
          rw [hstep, if_neg hk0, ih _ k' hk1]
          congr 1
          apply List.filterMap_congr
          intro d hd
          have hdm : d ∈ newDates rest (seen ++ [cx.date]) :=
            List.mem_of_mem_take hd
          have hne : ¬ (cx.date = d) := by
            intro he
            exact newDates_not_mem rest _ d hdm
              (List.mem_append_right _ (he ▸ List.mem_singleton_self _))
          rw [List.find?_cons_of_neg]
          simp [hne]

/-- Claim C8: `_find_relevant_contexts` classifies a query as needing
instant contexts exactly when its lower-cased text contains balance sheet
or goodwill as a substring (else duration), filters the contexts to that
type (returning the empty list when none exists), and otherwise — with the
dates parseable and at least one context requested — returns, from the
stable descending-date sort of the filtered contexts, the id of the first
context encountered for each of the first `n` (default two) distinct
dates, so that two same-type contexts sharing a date contribute one id. -/
theorem claimC8_selection (ctxs : List (Str × CtxInfo)) (q : Str) (n : ℕ) :
    (targetTypeOf q = ("instant").toList ↔
      (containsSub (("balance sheet").toList) (lowerStr q) = true ∨
       containsSub (("goodwill").toList) (lowerStr q) = true)) ∧
    (filtCtxs ctxs (targetTypeOf q) = [] →
      findRelevantContexts ctxs q n = .ok []) ∧
    (∀ sorted, 1 ≤ n →
      sortCtxsDesc (filtCtxs ctxs (targetTypeOf q)) = some sorted →
      findRelevantContexts ctxs q n = .ok (specSelect sorted n) ∧
      sorted.Pairwise ctxGe ∧
      List.Perm sorted (filtCtxs ctxs (targetTypeOf q))) := by
  have hbody : findRelevantContexts ctxs q n =
      (if filtCtxs ctxs (targetTypeOf q) = []
       then (Except.ok [] : Except PyExc (List Str))
       else
         match sortCtxsDesc (filtCtxs ctxs (targetTypeOf q)) with
         | none => .error .valueError
         | some s => .ok (pickLoop s [] [] n)) := rfl
  refine ⟨?_, ?_, ?_⟩
  · unfold targetTypeOf
    by_cases h : (containsSub (("balance sheet").toList) (lowerStr q) ||
        containsSub (("goodwill").toList) (lowerStr q)) = true
    · rw [if_pos h]
      simp only [Bool.or_eq_true] at h
      exact iff_of_true rfl h
    · rw [if_neg h]
      refine iff_of_false (by decide) ?_
      intro hc
      exact h (Bool.or_eq_true _ _ |>.mpr hc)
  · intro hf
    rw [hbody, if_pos hf]
  · intro sorted hn hs
    have hall_sorted : sorted =
        List.insertionSort ctxGe (filtCtxs ctxs (targetTypeOf q)) := by
      unfold sortCtxsDesc at hs
      by_cases hall : (filtCtxs ctxs (targetTypeOf q)).all
          (fun cx => (parseIsoDate cx.date).isSome) = true
      · rw [if_pos hall] at hs
        exact (Option.some_inj.mp hs).symm
      · rw [if_neg hall] at hs
        cases hs
    refine ⟨?_, ?_, ?_⟩
    · by_cases hf : filtCtxs ctxs (targetTypeOf q) = []
      · have hs0 : sorted = [] := by
          rw [hall_sorted, hf]
          rfl
        rw [hbody, if_pos hf, hs0]
        simp [specSelect, newDates]
      · rw [hbody, if_neg hf, hs]
        show Except.ok (pickLoop sorted [] [] n) = _
        congr 1
        rw [pickLoop_eq_specPick sorted [] [] n (by simpa using hn)]
        simp only [List.nil_append, List.length_nil, Nat.sub_zero]
        rw [specPick_eq_take sorted [] n hn]
        rfl
    · rw [hall_sorted]
      exact List.sorted_insertionSort ctxGe _
    · rw [hall_sorted]
      exact List.perm_insertionSort ctxGe _

/-- Claim C8 witness: on `ctxsC8` a duration query with the default count
of two returns one id per distinct date — the dimensional duplicate c2 of
the most recent date is dropped in favor of the first context c1. -/
theorem claimC8_witness :
    findRelevantContexts ctxsC8 (("income statement").toList) 2 =
      .ok [("c1").toList, ("c3").toList] := by
  have h := (claimC8_selection ctxsC8 (("income statement").toList) 2).2.2
      [⟨("c1").toList, ("2025-03-31").toList⟩,
       ⟨("c2").toList, ("2025-03-31").toList⟩,
       ⟨("c3").toList, ("2024-12-31").toList⟩]
      (by omega) (by decide)
  exact h.1.trans (by decide)

theorem digitCount_pos (m : ℕ) : 1 ≤ digitCount m := by
  unfold digitCount
  by_cases h : m = 0 <;> simp [h]

theorem lt_pow_digitCount (m : ℕ) : m < 10 ^ digitCount m := by
  by_cases h : m = 0
  · simp [h]
  · rw [digitCount_eq_log m h]
    exact Nat.lt_pow_succ_log_self (by norm_num) m

theorem digitCount_le (m j : ℕ) (h : m < 10 ^ j) (hj : 1 ≤ j) :
    digitCount m ≤ j := by
  by_cases hm : m = 0
  · simpa [digitCount, hm] using hj
  · rw [digitCount_eq_log m hm]
    have := Nat.log_lt_of_lt_pow hm h
    omega

theorem roundHalfEven_one (m : ℕ) : roundHalfEven m 1 = m := by
  show (if 2 * (m % 1) > 1 then m / 1 + 1
        else if 2 * (m % 1) < 1 then m / 1
        else if m / 1 % 2 = 1 then m / 1 + 1 else m / 1) = m
  simp [Nat.mod_one, Nat.div_one]

theorem roundHalfEven_le (m d : ℕ) : roundHalfEven m d ≤ m / d + 1 := by
  show (if 2 * (m % d) > d then m / d + 1
        else if 2 * (m % d) < d then m / d
        else if m / d % 2 = 1 then m / d + 1 else m / d) ≤ m / d + 1
  split_ifs <;> omega

theorem decFixT_ge (m : ℕ) (e : ℤ) : e ≤ decFixT m e := le_max_left _ _

theorem decFix_exact (neg : Bool) (m : ℕ) (e : ℤ)
    (h1 : digitCount m ≤ precD) (h2 : EtinyD ≤ e)
    (h3 : e + digitCount m - 1 ≤ EmaxD) :
    decFix neg m e = .ok (.fin neg m e) := by
  by_cases hm : m = 0
  · subst hm
    simp [decFix]
  · have ht : decFixT m e = e := by
      unfold decFixT
      have hp : ((precD : ℤ) - 1) = 37 := by norm_num [precD]
      apply max_eq_left
      apply max_le
      · have h1' : (digitCount m : ℤ) ≤ 38 := by
          have : (precD : ℤ) = 38 := by norm_num [precD]
          omega
        omega
      · exact h2
    have hM : decFixM m e = m := by
      unfold decFixM
      rw [ht, sub_self]
      simp [roundHalfEven_one]
    rw [decFix, if_neg hm, if_neg (by rw [hM]; exact hm), hM, ht, if_neg (by omega)]

theorem decPow10_ok (p : ℤ) (h1 : p ≤ EmaxD) (h2 : EtinyD ≤ p) :
    decPow10 p = .ok (.fin false 1 p) := by
  unfold decPow10
  rw [if_neg (by omega), if_neg (by omega)]

theorem decFix_ok (neg : Bool) (m : ℕ) (e : ℤ)
    (h : e + digitCount m ≤ EmaxD) :
    ∃ m' e', decFix neg m e = .ok (.fin neg m' e') := by
  by_cases hm : m = 0
  · exact ⟨0, e, by simp [decFix, hm]⟩
  · by_cases hz : decFixM m e = 0
    · exact ⟨0, EtinyD, by rw [decFix, if_neg hm, if_pos hz]⟩
    · refine ⟨decFixM m e, decFixT m e, ?_⟩
      rw [decFix, if_neg hm, if_neg hz, if_neg ?_]
      have hge := decFixT_ge m e
      have hkz : (((decFixT m e - e).toNat : ℤ)) = decFixT m e - e :=
        Int.toNat_of_nonneg (by omega)
      set k : ℕ := (decFixT m e - e).toNat with hk
      set dc : ℕ := digitCount m with hdc
      have hmlt : m < 10 ^ dc := lt_pow_digitCount m
      have hdc1 : 1 ≤ dc := digitCount_pos m
      by_cases hkd : k ≤ dc
      · have hdiv : m / 10 ^ k < 10 ^ (dc - k) := by
          rw [Nat.div_lt_iff_lt_mul (Nat.pos_pow_of_pos k (by norm_num))]
          calc m < 10 ^ dc := hmlt
          _ = 10 ^ (dc - k) * 10 ^ k := by
            rw [← pow_add]
            congr 1
            omega
        have hMle : decFixM m e ≤ 10 ^ (dc - k) := by
          have := roundHalfEven_le m (10 ^ k)
          unfold decFixM
          rw [← hk]
          omega
        have hdcM : digitCount (decFixM m e) ≤ dc - k + 1 := by
          apply digitCount_le
          · calc decFixM m e ≤ 10 ^ (dc - k) := hMle
            _ < 10 ^ (dc - k + 1) := by
              apply Nat.pow_lt_pow_right (by norm_num)
              omega
          · omega
        push_neg
        have : (digitCount (decFixM m e) : ℤ) ≤ (dc : ℤ) - k + 1 := by
          have hc : ((dc - k + 1 : ℕ) : ℤ) = (dc : ℤ) - k + 1 := by
            push_cast [Nat.cast_sub hkd]
            ring
          calc (digitCount (decFixM m e) : ℤ) ≤ ((dc - k + 1 : ℕ) : ℤ) := by
                exact_mod_cast hdcM
          _ = (dc : ℤ) - k + 1 := hc
        omega
      · have hmk : m < 10 ^ k := by
          calc m < 10 ^ dc := hmlt
          _ ≤ 10 ^ k := Nat.pow_le_pow_right (by norm_num) (by omega)
        have hdiv0 : m / 10 ^ k = 0 := Nat.div_eq_of_lt hmk
        have hM1 : decFixM m e = 1 := by
          have hle := roundHalfEven_le m (10 ^ k)
          unfold decFixM at hz ⊢
          rw [← hk] at hz ⊢
          omega
        rw [hM1]
        have hdC1 : digitCount 1 = 1 := by decide
        rw [hdC1]
        push_neg
        have htle : decFixT m e ≤ EmaxD - 1 := by
          unfold decFixT
          apply max_le
          · omega
          · apply max_le
            · have : (precD : ℤ) - 1 = 37 := by norm_num [precD]
              omega
            · norm_num [EtinyD, EminD, precD, EmaxD]
        omega

theorem tryChain_exact (pw : ℤ → ℤ → ℤ) (core scaleStr decStr : Str)
    (neg : Bool) (m : ℕ) (e s c : ℤ)
    (hp : parsePyDec core = some (.fin neg m e))
    (hss : parsePyInt scaleStr = some s)
    (hcc : parsePyInt decStr = some c)
    (h1 : digitCount m ≤ precD)
    (h2 : EtinyD ≤ pw s c) (h3 : pw s c ≤ EmaxD)
    (h4 : EtinyD ≤ e + pw s c)
    (h5 : e + pw s c + digitCount m - 1 ≤ EmaxD) :
    tryChainGen pw core scaleStr decStr = .ok (.fin neg m (e + pw s c)) := by
  unfold tryChainGen
  rw [hp, hss, hcc]
  show ((match decPow10 (pw s c) with
         | Except.error err => Except.error err
         | Except.ok p10 => decMul (PyDec.fin neg m e) p10) :
        Except TryErr PyDec) = _
  rw [decPow10_ok _ h3 h2]
  show decMul (.fin neg m e) (.fin false 1 (pw s c)) = _
  show decFix (xor neg false) (m * 1) (e + pw s c) = _
  rw [Bool.xor_false, mul_one]
  exact decFix_exact neg m _ h1 h4 h5

theorem intVal_cast (neg : Bool) (m : ℕ) (e : ℤ)
    (h : isIntegralDec m e = true) :
    ((intValDec neg m e : ℤ) : ℚ) = decValQ neg m e := by
  rw [decValQ_eq]
  unfold intValDec
  by_cases he : 0 ≤ e
  · rw [if_pos he]
    push_cast
    rw [← zpow_natCast (10 : ℚ) e.toNat, Int.toNat_of_nonneg he]
    cases neg <;> simp
  · rw [if_neg he]
    have hd : (10 : ℕ) ^ (-e).toNat ∣ m := by
      unfold isIntegralDec at h
      simp only [Bool.or_eq_true, decide_eq_true_eq] at h
      rcases h with h | h
      · omega
      · exact h
    have hdz : ((10 : ℤ) ^ (-e).toNat) ∣ (m : ℤ) := by exact_mod_cast hd
    rw [Int.cast_mul, Int.cast_div hdz (by positivity)]
    set t := (-e).toNat with htdef
    have hz : (10 : ℚ) ^ e = ((10 : ℚ) ^ t)⁻¹ := by
      have he2 : e = -(t : ℤ) := by omega
      rw [he2, zpow_neg, zpow_natCast]
    rw [hz]
    have hnz : ((10 : ℚ) ^ t) ≠ 0 := by positivity
    push_cast
    cases neg <;> simp <;> field_simp

theorem getScaled_fin (pw : ℤ → ℤ → ℤ) (vobj : ValueObj) (v : Str)
    (neg : Bool) (m : ℕ) (e : ℤ)
    (hv : vobj.value = some v) (hne : v ≠ []) (hna : v ≠ ("N/A").toList)
    (ht : tryChainGen pw (coreOf v) (scaleStrOf vobj) (decStrOf vobj) =
      .ok (.fin neg m e)) :
    getScaledNumericGen pw vobj =
      (if isIntegralDec m e
       then .ok (.int (intValDec (xor (accNeg (cleanedOf v)) neg) m e))
       else .ok (.floatV (decValQ (xor (accNeg (cleanedOf v)) neg) m e))) := by
  have hcond : ¬ (v = [] ∨ v = ("N/A").toList) := by
    intro hc
    rcases hc with hc | hc
    · exact hne hc
    · exact hna hc
  simp only [getScaledNumericGen, hv, if_neg hcond, ht]
  have hng : (if accNeg (cleanedOf v) then decNegate (.fin neg m e)
      else (.fin neg m e : PyDec)) =
      .fin (xor (accNeg (cleanedOf v)) neg) m e := by
    cases hA : accNeg (cleanedOf v) <;> simp [decNegate]
  rw [hng]
  have hemit : emitDec (.fin (xor (accNeg (cleanedOf v)) neg) m e) =
      (if isIntegralDec m e
       then .ok (.int (intValDec (xor (accNeg (cleanedOf v)) neg) m e))
       else .ok (.floatV (decValQ (xor (accNeg (cleanedOf v)) neg) m e))) := rfl
  rw [hemit]
  by_cases hi : isIntegralDec m e = true
  · rw [if_pos hi, if_pos hi]
  · rw [if_neg hi, if_neg hi]

theorem numericContent_getScaled_fin (pw : ℤ → ℤ → ℤ) (vobj : ValueObj)
    (v : Str) (neg : Bool) (m : ℕ) (e : ℤ)
    (hv : vobj.value = some v) (hne : v ≠ []) (hna : v ≠ ("N/A").toList)
    (ht : tryChainGen pw (coreOf v) (scaleStrOf vobj) (decStrOf vobj) =
      .ok (.fin neg m e)) :
    numericContent (getScaledNumericGen pw vobj) =
      some (decValQ (xor (accNeg (cleanedOf v)) neg) m e) := by
  rw [getScaled_fin pw vobj v neg m e hv hne hna ht]
  by_cases hi : isIntegralDec m e
  · rw [if_pos hi]
    show some ((intValDec (xor (accNeg (cleanedOf v)) neg) m e : ℤ) : ℚ) = _
    rw [intVal_cast _ m e hi]
  · rw [if_neg hi]
    rfl

/-- Claim C1 counterexample: the fact with value text 1, scale 1000000 and
decimals 0 parses as a decimal number, but instead of returning 1 times
ten to the 1000000, `_get_scaled_numeric` raises: `Decimal(10) ** 1000000`
exceeds the decimal context Emax of 999999 and `decimal.Overflow` (trapped
by the default context and absent from the except clause) escapes to the
caller, so no value at all is returned. -/
theorem claimC1_cex :
    Htm.getScaledNumeric vObjC1 = .error .decOverflow ∧
    numericContent (Htm.getScaledNumeric vObjC1) = none :=
  ⟨by decide, by decide⟩

/-- Claim C1 (amended): for every fact whose cleaned value text parses as
a finite decimal d = (sign) m * 10^e with integer attributes scale s and
decimals c (INF treated as 0), provided the coefficient fits the context
precision of 38 digits and the combined exponent s - c and the result
exponent stay within the decimal context range (so that no Overflow is
signalled and no rounding or underflow occurs), `_get_scaled_numeric` in
htm_parser.py returns exactly d times ten to the power (s - c) with the
remembered accounting sign applied — as an exact int when whole, else as
the exact value handed to `float`. -/
theorem claimC1_amended (vobj : ValueObj) (v : Str) (neg : Bool) (m : ℕ)
    (e s c : ℤ)
    (hv : vobj.value = some v) (hne : v ≠ []) (hna : v ≠ ("N/A").toList)
    (hp : parsePyDec (coreOf v) = some (.fin neg m e))
    (hs : parsePyInt (scaleStrOf vobj) = some s)
    (hc : parsePyInt (decStrOf vobj) = some c)
    (h1 : digitCount m ≤ precD)
    (h2 : EtinyD ≤ s - c) (h3 : s - c ≤ EmaxD)
    (h4 : EtinyD ≤ e + (s - c))
    (h5 : e + (s - c) + digitCount m - 1 ≤ EmaxD) :
    numericContent (Htm.getScaledNumeric vobj) =
      some ((if accNeg (cleanedOf v) then (-1 : ℚ) else 1) *
        ((if neg then (-1 : ℚ) else 1) * (m : ℚ) * (10 : ℚ) ^ e) *
        (10 : ℚ) ^ (s - c)) := by
  have ht := tryChain_exact (fun s c => s - c) (coreOf v) (scaleStrOf vobj)
    (decStrOf vobj) neg m e s c hp hs hc h1 h2 h3 h4 h5
  have hn := numericContent_getScaled_fin (fun s c => s - c) vobj v neg m
    (e + (s - c)) hv hne hna ht
  show numericContent (getScaledNumericGen (fun s c => s - c) vobj) = _
  rw [hn, decValQ_eq]
  rw [zpow_add₀ (by norm_num : (10 : ℚ) ≠ 0)]
  cases hA : accNeg (cleanedOf v) <;> cases neg <;> simp <;> ring

/-- Claim C1 witness: the two examples of the claim, value 100 with
scale 6 and decimals 0 scaling to 100000000 and value 100 with scale 0
and decimals -3 scaling to 100000, follow from the amended theorem. -/
theorem claimC1_witness :
    numericContent (Htm.getScaledNumeric
      ⟨some (("100").toList), some (("6").toList), some (("0").toList)⟩) =
      some (100000000 : ℚ) ∧
    numericContent (Htm.getScaledNumeric
      ⟨some (("100").toList), some (("0").toList), some (("-3").toList)⟩) =
      some (100000 : ℚ) := by
  constructor
  · have h := claimC1_amended
      ⟨some (("100").toList), some (("6").toList), some (("0").toList)⟩
      (("100").toList) false 100 0 6 0 rfl (by decide) (by decide)
      (by decide) (by decide) (by decide) (by decide) (by decide)
      (by decide) (by decide) (by decide)
    rw [h]
    norm_num
    decide
  · have h := claimC1_amended
      ⟨some (("100").toList), some (("0").toList), some (("-3").toList)⟩
      (("100").toList) false 100 0 0 (-3) rfl (by decide) (by decide)
      (by decide) (by decide) (by decide) (by decide) (by decide)
      (by decide) (by decide) (by decide)
    rw [h]
    norm_num
    decide

theorem tryChain_result (pw : ℤ → ℤ → ℤ) (core ss ds : Str)
    (hinf : ∀ b, parsePyDec core ≠ some (.inf b))
    (hpow : ∀ s c, parsePyInt ss = some s → parsePyInt ds = some c →
      pw s c ≤ EmaxD)
    (hmul : ∀ neg m e s c, parsePyDec core = some (.fin neg m e) →
      parsePyInt ss = some s → parsePyInt ds = some c →
      e + pw s c + digitCount m ≤ EmaxD) :
    tryChainGen pw core ss ds = .error .caught ∨
    tryChainGen pw core ss ds = .ok .nan ∨
    ∃ neg m' e', tryChainGen pw core ss ds = .ok (.fin neg m' e') := by
  rcases hb : parsePyDec core with _ | base
  · left
    simp only [tryChainGen, hb]
  · rcases hss : parsePyInt ss with _ | s
    · left
      simp only [tryChainGen, hb, hss]
    · rcases hds : parsePyInt ds with _ | c
      · left
        simp only [tryChainGen, hb, hss, hds]
      · have hple := hpow s c hss hds
        have hp10 : ∃ mc : ℕ, mc ≤ 1 ∧ ∃ ep, decPow10 (pw s c) = .ok (.fin false mc ep) ∧
            (mc = 1 → ep = pw s c) := by
          by_cases hpt : pw s c < EtinyD
          · refine ⟨0, by omega, EtinyD, ?_, by omega⟩
            unfold decPow10
            rw [if_neg (by omega), if_pos hpt]
          · refine ⟨1, le_rfl, pw s c, decPow10_ok _ hple (by omega), fun _ => rfl⟩
        obtain ⟨mc, hmc, ep, hdp, hep⟩ := hp10
        cases base with
        | snan =>
            left
            simp only [tryChainGen, hb, hss, hds, hdp]
            rfl
        | nan =>
            right; left
            simp only [tryChainGen, hb, hss, hds, hdp]
            rfl
        | inf bb => exact absurd hb (hinf bb)
        | fin nm mm ee =>
            right; right
            interval_cases mc
            · refine ⟨xor nm false, 0, ee + ep, ?_⟩
              simp only [tryChainGen, hb, hss, hds, hdp]
              show decMul (.fin nm mm ee) (.fin false 0 ep) = _
              show decFix (xor nm false) (mm * 0) (ee + ep) = _
              rw [mul_zero]
              simp [decFix]
            · rw [hep rfl] at hdp
              have hfix := decFix_ok (xor nm false) mm (ee + pw s c) (by
                have := hmul nm mm ee s c hb hss hds
                omega)
              obtain ⟨m', e', hfe⟩ := hfix
              refine ⟨xor nm false, m', e', ?_⟩
              simp only [tryChainGen, hb, hss, hds, hdp]
              show decMul (.fin nm mm ee) (.fin false 1 (pw s c)) = _
              show decFix (xor nm false) (mm * 1) (ee + pw s c) = _
              rw [mul_one]
              exact hfe

theorem getScaled_no_error (pw : ℤ → ℤ → ℤ) (vobj : ValueObj)
    (hinf : ∀ b, parsePyDec (coreOf ((vobj.value).getD [])) ≠ some (.inf b))
    (hpow : ∀ s c, parsePyInt (scaleStrOf vobj) = some s →
      parsePyInt (decStrOf vobj) = some c → pw s c ≤ EmaxD)
    (hmul : ∀ neg m e s c,
      parsePyDec (coreOf ((vobj.value).getD [])) = some (.fin neg m e) →
      parsePyInt (scaleStrOf vobj) = some s →
      parsePyInt (decStrOf vobj) = some c →
      e + pw s c + digitCount m ≤ EmaxD) :
    ∀ err, getScaledNumericGen pw vobj ≠ .error err := by
  intro err
  rcases hv : vobj.value with _ | v
  · simp [getScaledNumericGen, hv]
  · have hcore : (vobj.value).getD [] = v := by rw [hv]; rfl
    rw [hcore] at hinf hmul
    by_cases hcond : v = [] ∨ v = ("N/A").toList
    · simp only [getScaledNumericGen, hv]
      rw [if_pos hcond]
      intro hc
      exact Except.noConfusion hc
    · rcases tryChain_result pw (coreOf v) (scaleStrOf vobj) (decStrOf vobj)
        hinf hpow hmul with h | h | ⟨neg, m', e', h⟩
      · simp only [getScaledNumericGen, hv, h]
        rw [if_neg hcond]
        intro hc
        exact Except.noConfusion hc
      · simp only [getScaledNumericGen, hv, if_neg hcond, h]
        have hnn : (if accNeg (cleanedOf v) then decNegate .nan
            else (.nan : PyDec)) = .nan := by
          cases accNeg (cleanedOf v) <;> simp [decNegate]
        rw [hnn]
        show (Except.ok ScaledResult.floatNan : Except PyExc ScaledResult) ≠ _
        intro hc
        exact Except.noConfusion hc
      · push_neg at hcond
        rw [getScaled_fin pw vobj v neg m' e' hv hcond.1 hcond.2 h]
        by_cases hi : isIntegralDec m' e' = true
        · rw [if_pos hi]
          intro hc
          exact Except.noConfusion hc
        · rw [if_neg hi]
          intro hc
          exact Except.noConfusion hc

/-- Claim C6 counterexample: on the fact whose value text is Infinity,
`_get_scaled_numeric` does raise to its caller: the text parses to the
Decimal Infinity, the equality with `to_integral_value()` holds, and
`int(Infinity)` raises OverflowError, which the except clause
(ValueError, TypeError, InvalidOperation) does not catch — so the
function neither returns N/A, nor a number, nor truncated text. -/
theorem claimC6_cex :
    Htm.getScaledNumeric vObjC6 = .error .overflowError ∧
    ∀ r, Htm.getScaledNumeric vObjC6 ≠ .ok r := by
  refine ⟨by decide, ?_⟩
  intro r hc
  have he : Htm.getScaledNumeric vObjC6 = .error .overflowError := by decide
  rw [he] at hc
  exact Except.noConfusion hc

/-- Claim C6 (amended): `_get_scaled_numeric` never raises to its caller
provided the cleaned value text does not parse to an infinity and the
combined exponent `scale - decimals` and the result adjusted exponent
stay within the decimal context Emax (ruling out the untrapped
`decimal.Overflow` and the `OverflowError` of `int()` on an infinity);
under those conditions an empty, missing, or literal N/A value yields
the N/A sentinel, and a value whose cleaned text fails to parse as a
Decimal yields the original raw text unchanged when at most 75 characters
long, else its first 75 characters followed by the ellipsis marker. -/
theorem claimC6_amended (vobj : ValueObj)
    (hinf : ∀ b, parsePyDec (coreOf ((vobj.value).getD [])) ≠ some (.inf b))
    (hpow : ∀ s c, parsePyInt (scaleStrOf vobj) = some s →
      parsePyInt (decStrOf vobj) = some c → s - c ≤ EmaxD)
    (hmul : ∀ neg m e s c,
      parsePyDec (coreOf ((vobj.value).getD [])) = some (.fin neg m e) →
      parsePyInt (scaleStrOf vobj) = some s →
      parsePyInt (decStrOf vobj) = some c →
      e + (s - c) + digitCount m ≤ EmaxD) :
    (∀ err, Htm.getScaledNumeric vobj ≠ .error err) ∧
    ((vobj.value = none ∨ vobj.value = some [] ∨
        vobj.value = some (("N/A").toList)) →
      Htm.getScaledNumeric vobj = .ok .na) ∧
    (∀ v, vobj.value = some v → v ≠ [] → v ≠ ("N/A").toList →
      parsePyDec (coreOf v) = none →
      Htm.getScaledNumeric vobj = .ok (.text
        (if v.length > 75 then v.take 75 ++ ("...").toList else v))) := by
  refine ⟨?_, ?_, ?_⟩
  · exact getScaled_no_error (fun s c => s - c) vobj hinf hpow hmul
  · intro hc
    rcases hc with hc | hc | hc
    · show getScaledNumericGen (fun s c => s - c) vobj = _
      simp only [getScaledNumericGen, hc]
    · show getScaledNumericGen (fun s c => s - c) vobj = _
      simp [getScaledNumericGen, hc]
    · show getScaledNumericGen (fun s c => s - c) vobj = _
      simp [getScaledNumericGen, hc]
  · intro v hv hne hna hparse
    have hcond : ¬ (v = [] ∨ v = ("N/A").toList) := by
      intro hc
      rcases hc with hc | hc
      · exact hne hc
      · exact hna hc
    have htc : tryChainGen (fun s c => s - c) (coreOf v) (scaleStrOf vobj)
        (decStrOf vobj) = .error .caught := by
      simp only [tryChainGen, hparse]
    show getScaledNumericGen (fun s c => s - c) vobj = _
    simp only [getScaledNumericGen, hv, htc]
    rw [if_neg hcond]
    rfl

/-- Claim C6 witness: a narrative value degrades to the raw text without
raising, and a missing value yields the N/A sentinel. -/
theorem claimC6_witness :
    (∀ err, Htm.getScaledNumeric
      ⟨some (("See Note 5").toList), none, none⟩ ≠ .error err) ∧
    Htm.getScaledNumeric ⟨some (("See Note 5").toList), none, none⟩ =
      .ok (.text (("See Note 5").toList)) ∧
    Htm.getScaledNumeric ⟨none, none, none⟩ = .ok .na := by
  have hpow1 : ∀ s c,
      parsePyInt (scaleStrOf ⟨some (("See Note 5").toList), none, none⟩) = some s →
      parsePyInt (decStrOf ⟨some (("See Note 5").toList), none, none⟩) = some c →
      s - c ≤ EmaxD := by
    intro s c hs hc
    rw [show parsePyInt (scaleStrOf ⟨some (("See Note 5").toList), none, none⟩) =
      some 0 from by decide] at hs
    rw [show parsePyInt (decStrOf ⟨some (("See Note 5").toList), none, none⟩) =
      some 0 from by decide] at hc
    simp only [Option.some.injEq] at hs hc
    subst hs
    subst hc
    decide
  have h1 := claimC6_amended ⟨some (("See Note 5").toList), none, none⟩
    (by decide) hpow1
    (by
      intro neg m e s c hparse _ _
      rw [show parsePyDec (coreOf ((
        (⟨some (("See Note 5").toList), none, none⟩ : ValueObj)).value.getD [])) =
        none from by decide] at hparse
      exact Option.noConfusion hparse)
  have hpow2 : ∀ s c,
      parsePyInt (scaleStrOf (⟨none, none, none⟩ : ValueObj)) = some s →
      parsePyInt (decStrOf (⟨none, none, none⟩ : ValueObj)) = some c →
      s - c ≤ EmaxD := by
    intro s c hs hc
    rw [show parsePyInt (scaleStrOf (⟨none, none, none⟩ : ValueObj)) =
      some 0 from by decide] at hs
    rw [show parsePyInt (decStrOf (⟨none, none, none⟩ : ValueObj)) =
      some 0 from by decide] at hc
    simp only [Option.some.injEq] at hs hc
    subst hs
    subst hc
    decide
  have h2 := claimC6_amended ⟨none, none, none⟩
    (by decide) hpow2
    (by
      intro neg m e s c hparse _ _
      rw [show parsePyDec (coreOf (((⟨none, none, none⟩ : ValueObj)).value.getD [])) =
        none from by decide] at hparse
      exact Option.noConfusion hparse)
  refine ⟨h1.1, ?_, h2.2.1 (Or.inl rfl)⟩
  exact (h1.2.2 (("See Note 5").toList) rfl (by decide) (by decide)
    (by decide)).trans (by decide)

theorem decValQ_neg (neg : Bool) (m : ℕ) (e : ℤ) :
    decValQ (!neg) m e = -(decValQ neg m e) := by
  rw [decValQ_eq, decValQ_eq]
  cases neg <;> simp

theorem numericContent_getScaled_err (pw : ℤ → ℤ → ℤ) (vobj : ValueObj)
    (v : Str) (err : TryErr) (hv : vobj.value = some v) (hne : v ≠ [])
    (hna : v ≠ ("N/A").toList)
    (ht : tryChainGen pw (coreOf v) (scaleStrOf vobj) (decStrOf vobj) =
      .error err) :
    numericContent (getScaledNumericGen pw vobj) = none := by
  have hcond : ¬ (v = [] ∨ v = ("N/A").toList) := by
    intro hc
    rcases hc with hc | hc
    · exact hne hc
    · exact hna hc
  simp only [getScaledNumericGen, hv, ht]
  rw [if_neg hcond]
  cases err <;> rfl

theorem numericContent_getScaled_special (pw : ℤ → ℤ → ℤ) (vobj : ValueObj)
    (v : Str) (d : PyDec) (hv : vobj.value = some v) (hne : v ≠ [])
    (hna : v ≠ ("N/A").toList)
    (ht : tryChainGen pw (coreOf v) (scaleStrOf vobj) (decStrOf vobj) = .ok d)
    (hd : d = PyDec.nan ∨ d = PyDec.snan ∨ ∃ b, d = PyDec.inf b) :
    numericContent (getScaledNumericGen pw vobj) = none := by
  have hcond : ¬ (v = [] ∨ v = ("N/A").toList) := by
    intro hc
    rcases hc with hc | hc
    · exact hne hc
    · exact hna hc
  simp only [getScaledNumericGen, hv, ht]
  rw [if_neg hcond]
  rcases hd with rfl | rfl | ⟨b, rfl⟩
  · have hn : (if accNeg (cleanedOf v) then decNegate .nan
        else (PyDec.nan)) = .nan := by
      cases accNeg (cleanedOf v) <;> simp [decNegate]
    rw [hn]
    rfl
  · have hn : (if accNeg (cleanedOf v) then decNegate .snan
        else (PyDec.snan)) = .snan := by
      cases accNeg (cleanedOf v) <;> simp [decNegate]
    rw [hn]
    rfl
  · cases hA : accNeg (cleanedOf v) <;>
      simp [hA, decNegate, emitDec, numericContent]

/-- Claim C9: a fact whose value text is a number in accounting-negative
notation (wrapped in parentheses, commas allowed) scales to the negation
of the value the same fact without the parentheses would produce, whenever
the latter yields a number. -/
theorem claimC9_parenNegation (vobj : ValueObj) (v : Str) (q : ℚ)
    (hv : vobj.value = some v) (hne : v ≠ []) (hna : v ≠ ("N/A").toList)
    (hpar : accNeg (cleanedOf v) = true)
    (h1 : coreOf v ≠ []) (h2 : coreOf v ≠ ("N/A").toList)
    (h3 : cleanedOf (coreOf v) = coreOf v)
    (h4 : accNeg (coreOf v) = false)
    (hq : numericContent (Htm.getScaledNumeric
        ⟨some (coreOf v), vobj.scale, vobj.decimals⟩) = some q) :
    numericContent (Htm.getScaledNumeric vobj) = some (-q) := by
  set vobj' : ValueObj := ⟨some (coreOf v), vobj.scale, vobj.decimals⟩
    with hvdef
  have hv' : vobj'.value = some (coreOf v) := rfl
  have hcoreDef : ∀ x : Str, coreOf x =
      if accNeg (cleanedOf x) then stripParens (cleanedOf x) else cleanedOf x :=
    fun _ => rfl
  have hcc : coreOf (coreOf v) = coreOf v := by
    rw [hcoreDef (coreOf v), h3, h4]
    simp
  rcases hT : tryChainGen (fun s c => s - c) (coreOf v) (scaleStrOf vobj)
      (decStrOf vobj) with err | d
  · exfalso
    rw [show Htm.getScaledNumeric vobj' =
        getScaledNumericGen (fun s c => s - c) vobj' from rfl,
      numericContent_getScaled_err _ vobj' (coreOf v) err hv' h1 h2
        (by rw [hcc]; exact hT)] at hq
    exact Option.noConfusion hq
  · have hspecial : ∀ hd : d = PyDec.nan ∨ d = PyDec.snan ∨
        ∃ b, d = PyDec.inf b, False := by
      intro hd
      rw [show Htm.getScaledNumeric vobj' =
          getScaledNumericGen (fun s c => s - c) vobj' from rfl,
        numericContent_getScaled_special _ vobj' (coreOf v) d hv' h1 h2
          (by rw [hcc]; exact hT) hd] at hq
      exact Option.noConfusion hq
    cases d with
    | nan => exact absurd (Or.inl rfl) (fun hd => hspecial hd)
    | snan => exact absurd (Or.inr (Or.inl rfl)) (fun hd => hspecial hd)
    | inf b => exact absurd (Or.inr (Or.inr ⟨b, rfl⟩)) (fun hd => hspecial hd)
    | fin nm mm ee =>
        have hq' := numericContent_getScaled_fin (fun s c => s - c) vobj'
          (coreOf v) nm mm ee hv' h1 h2 (by rw [hcc]; exact hT)
        rw [show Htm.getScaledNumeric vobj' =
            getScaledNumericGen (fun s c => s - c) vobj' from rfl, hq'] at hq
        rw [h3, h4] at hq
        simp only [Bool.false_xor, Option.some.injEq] at hq
        have hmain := numericContent_getScaled_fin (fun s c => s - c) vobj v
          nm mm ee hv hne hna hT
        rw [show Htm.getScaledNumeric vobj =
            getScaledNumericGen (fun s c => s - c) vobj from rfl, hmain, hpar]
        simp only [Bool.true_xor]
        rw [decValQ_neg, hq]

/-- Claim C9 witness: the value (1,234) with default scale and decimals
normalizes to -1234, the negation of what the unwrapped text 1234
produces. -/
theorem claimC9_witness :
    numericContent (Htm.getScaledNumeric vObjC9) = some (-1234 : ℚ) := by
  have h := claimC9_parenNegation vObjC9 (("(1,234)").toList) ((1234 : ℤ) : ℚ)
    rfl (by decide) (by decide) (by decide) (by decide) (by decide)
    (by decide) (by decide) (by decide)
  rw [h]
  norm_num
